import Mathlib

/-!
Verification of the fashion-label serverless handler (`src/index.py`).

The development shallowly embeds the handler's data and logic:

* `Json` and the fuel-based functions `parseStr`, `parseNumber`, `parseStep`,
  `parseDoc`, `parseJson` model Python's `json.loads` (strict mode, which is
  what `index.py` uses): JSON whitespace is ` \t\n\r`, numbers follow the
  `-?(0|[1-9]\d*)(\.\d+)?([eE][-+]?\d+)?` lexeme grammar plus the
  `NaN`/`Infinity`/`-Infinity` constants Python accepts, strings validate
  escapes and reject raw control characters, objects collapse duplicate keys
  last-wins as Python dicts do.  Number and string values are represented by
  their source lexemes; numeric/escape decoding is not modelled because no
  property examined here depends on it.
* `pyStripList`, `findSplit`, `splitSepList`, `pyContains` model the Python
  string operations `str.strip`, `str.split` and the `in` operator used on
  lines 163-166 of `index.py`.
* `encode_image`, `thumbnailSize` model the image-normalisation geometry of
  lines 12-36 (Pillow `Image.thumbnail` plus white-canvas paste).
* `main` models the request handler of lines 38-190.
-/

/-- Model of a parsed Python JSON value (the result of `json.loads`).
Numbers are kept as their source lexemes. -/
inductive Json where
  | null : Json
  | bool (b : Bool) : Json
  | num (lit : String) : Json
  | str (s : String) : Json
  | arr (elems : List Json) : Json
  | obj (entries : List (String × Json)) : Json

/-- JSON whitespace characters, exactly the set Python's json decoder skips. -/
def isJsonWs (c : Char) : Bool :=
  c == ' ' || c == '\t' || c == '\n' || c == '\r'

/-- Skip leading JSON whitespace, modelling the decoder's `_w(s, idx).end()`. -/
def skipWs (l : List Char) : List Char := l.dropWhile isJsonWs

/-- Hexadecimal digit test, for `\uXXXX` escapes. -/
def hexDigit (c : Char) : Bool :=
  c.isDigit || ('a' ≤ c && c ≤ 'f') || ('A' ≤ c && c ≤ 'F')

/-- Parse the body of a JSON string after the opening quote: returns the raw
character run between the quotes and the remainder after the closing quote.
Escapes are validated as Python's strict decoder does; raw control
characters below 0x20 are rejected. -/
def parseStr : Nat → List Char → Option (List Char × List Char)
  | 0, _ => none
  | _+1, [] => none
  | f+1, c :: tl =>
    if c = '"' then some ([], tl)
    else if c = '\\' then
      match tl with
      | [] => none
      | e :: tl2 =>
        if e = '"' ∨ e = '\\' ∨ e = '/' ∨ e = 'b' ∨ e = 'f' ∨ e = 'n' ∨ e = 'r' ∨ e = 't' then
          match parseStr f tl2 with
          | some (s, r) => some (c :: e :: s, r)
          | none => none
        else if e = 'u' then
          match tl2 with
          | h1 :: h2 :: h3 :: h4 :: tl3 =>
            if hexDigit h1 && hexDigit h2 && hexDigit h3 && hexDigit h4 then
              match parseStr f tl3 with
              | some (s, r) => some (c :: e :: h1 :: h2 :: h3 :: h4 :: s, r)
              | none => none
            else none
          | _ => none
        else none
    else if c.toNat < 32 then none
    else
      match parseStr f tl with
      | some (s, r) => some (c :: s, r)
      | none => none

/-- Parse the optional exponent part `[eE][-+]?\d+` of a JSON number lexeme.
If the exponent is absent or malformed the input is returned untouched,
mirroring the regex's greedy-but-optional group. -/
def parseExpPart (l : List Char) : List Char × List Char :=
  match l with
  | e :: tl =>
    if e = 'e' ∨ e = 'E' then
      match tl with
      | s :: tl2 =>
        if s = '+' ∨ s = '-' then
          if (tl2.takeWhile Char.isDigit).isEmpty then ([], l)
          else (e :: s :: tl2.takeWhile Char.isDigit, tl2.dropWhile Char.isDigit)
        else
          if (tl.takeWhile Char.isDigit).isEmpty then ([], l)
          else (e :: tl.takeWhile Char.isDigit, tl.dropWhile Char.isDigit)
      | [] => ([], l)
    else ([], l)
  | [] => ([], l)

/-- Parse the optional fraction `\.\d+` followed by the optional exponent.
When the fraction is absent or malformed the exponent is matched at the
current position, mirroring the regex. -/
def parseFracExp (l : List Char) : List Char × List Char :=
  match l with
  | [] => ([], [])
  | c :: tl =>
    if c = '.' then
      if (tl.takeWhile Char.isDigit).isEmpty then parseExpPart l
      else
        ('.' :: (tl.takeWhile Char.isDigit ++ (parseExpPart (tl.dropWhile Char.isDigit)).1),
          (parseExpPart (tl.dropWhile Char.isDigit)).2)
    else parseExpPart l

/-- Parse the unsigned part `(0|[1-9]\d*)(\.\d+)?([eE][-+]?\d+)?` of a JSON
number lexeme, returning the matched characters and the remainder. -/
def parseNumberCore (l : List Char) : Option (List Char × List Char) :=
  match l with
  | [] => none
  | c :: tl =>
    if c = '0' then some ('0' :: (parseFracExp tl).1, (parseFracExp tl).2)
    else if c.isDigit then
      some (c :: (tl.takeWhile Char.isDigit ++ (parseFracExp (tl.dropWhile Char.isDigit)).1),
        (parseFracExp (tl.dropWhile Char.isDigit)).2)
    else none

/-- Parse a JSON number lexeme `-?(0|[1-9]\d*)(\.\d+)?([eE][-+]?\d+)?`,
returning the lexeme and the remainder. -/
def parseNumber (l : List Char) : Option (String × List Char) :=
  match l with
  | [] => none
  | c :: tl =>
    if c = '-' then (parseNumberCore tl).map (fun p => (String.mk ('-' :: p.1), p.2))
    else (parseNumberCore (c :: tl)).map (fun p => (String.mk p.1, p.2))

/-- Match a fixed literal such as `true` at the head of the input. -/
def matchLit (pat : List Char) (j : Json) (l : List Char) : Option (Json × List Char) :=
  if pat.isPrefixOf l then some (j, l.drop pat.length) else none

/-- Replace the value stored at a key, or append the binding, modelling
Python `dict` item assignment (insertion order preserved, updates in place). -/
def insertEntry : List (String × Json) → String → Json → List (String × Json)
  | [], key, v => [(key, v)]
  | (k, w) :: tl, key, v =>
    if k = key then (k, v) :: tl else (k, w) :: insertEntry tl key v

/-- Collapse duplicate object keys last-wins, as building a Python dict does. -/
def dedupeEntries (ms : List (String × Json)) : List (String × Json) :=
  ms.foldl (fun acc kv => insertEntry acc kv.1 kv.2) []

/-- Parser mode: a JSON value, array elements just after `[` (empty array
allowed), array elements after a comma (a value is required), object members
just after a brace (empty object allowed), object members after a comma. -/
inductive PMode where
  | value : PMode
  | elems0 : PMode
  | elems1 : PMode
  | members0 : PMode
  | members1 : PMode

/-- Recursive core of the `json.loads` model.  The fuel argument only bounds
recursion depth; `parseJson` supplies enough for any input.  Modes `elems1`
and `members1` return the remaining elements wrapped in `Json.arr` or
`Json.obj`. -/
def parseStep : Nat → PMode → List Char → Option (Json × List Char)
  | 0, _, _ => none
  | _+1, .value, [] => none
  | f+1, .value, c :: tl =>
    if c = '"' then
      match parseStr f tl with
      | some (s, r) => some (.str (String.mk s), r)
      | none => none
    else if c = '[' then parseStep f .elems0 tl
    else if c = '\x7b' then
      match parseStep f .members0 tl with
      | some (.obj ms, r) => some (.obj (dedupeEntries ms), r)
      | _ => none
    else if c = 't' then matchLit ['t', 'r', 'u', 'e'] (.bool true) (c :: tl)
    else if c = 'f' then matchLit ['f', 'a', 'l', 's', 'e'] (.bool false) (c :: tl)
    else if c = 'n' then matchLit ['n', 'u', 'l', 'l'] .null (c :: tl)
    else if c = 'N' then matchLit ['N', 'a', 'N'] (.num "NaN") (c :: tl)
    else if c = 'I' then matchLit "Infinity".toList (.num "Infinity") (c :: tl)
    else if c = '-' && tl.head? == some 'I' then
      matchLit "-Infinity".toList (.num "-Infinity") (c :: tl)
    else
      match parseNumber (c :: tl) with
      | some (s, r) => some (.num s, r)
      | none => none
  | f+1, .elems0, l =>
    match skipWs l with
    | ']' :: r => some (.arr [], r)
    | l1 => parseStep f .elems1 l1
  | f+1, .elems1, l =>
    match parseStep f .value l with
    | none => none
    | some (v, r) =>
      match skipWs r with
      | ']' :: r2 => some (.arr [v], r2)
      | ',' :: r2 =>
        match parseStep f .elems1 (skipWs r2) with
        | some (.arr vs, r3) => some (.arr (v :: vs), r3)
        | _ => none
      | _ => none
  | f+1, .members0, l =>
    match skipWs l with
    | '\x7d' :: r => some (.obj [], r)
    | l1 => parseStep f .members1 l1
  | f+1, .members1, l =>
    match l with
    | '"' :: tl =>
      match parseStr f tl with
      | none => none
      | some (k, r) =>
        match skipWs r with
        | ':' :: r2 =>
          match parseStep f .value (skipWs r2) with
          | none => none
          | some (v, r3) =>
            match skipWs r3 with
            | '\x7d' :: r4 => some (.obj [(String.mk k, v)], r4)
            | ',' :: r4 =>
              match parseStep f .members1 (skipWs r4) with
              | some (.obj ms, r5) => some (.obj ((String.mk k, v) :: ms), r5)
              | _ => none
            | _ => none
        | _ => none
    | _ => none

/-- Document-level parse: skip leading whitespace, parse one value, require
only whitespace afterwards ("Extra data" otherwise), as `json.loads` does. -/
def parseDoc (f : Nat) (s : String) : Option Json :=
  match parseStep f .value (skipWs s.toList) with
  | some (v, r) => if (skipWs r).isEmpty then some v else none
  | none => none

/-- Executable `json.loads` model.  Fuel `2 * length + 2` always suffices:
every three consecutive recursion steps consume at least one character. -/
def parseJson (s : String) : Option Json :=
  parseDoc (2 * s.length + 2) s

/-- Acceptance by the `json.loads` model at some fuel; fuel-monotonicity
(`parseStep_mono`) makes this deterministic. -/
def Parses (s : String) (v : Json) : Prop := ∃ f, parseDoc f s = some v

/-- Find the first occurrence of `sep` in `l`: returns the part before the
occurrence and the part after it.  `none` when `sep` does not occur. -/
def findSplit (sep : List Char) : List Char → Option (List Char × List Char)
  | [] => if sep.isEmpty then some ([], []) else none
  | c :: tl =>
    if sep.isPrefixOf (c :: tl) then some ([], (c :: tl).drop sep.length)
    else
      match findSplit sep tl with
      | some (p, q) => some (c :: p, q)
      | none => none

/-- Model of Python `sep in s` (substring test) on character lists. -/
def containsSeq (sep l : List Char) : Bool := (findSplit sep l).isSome

/-- Model of Python's `pat in s` for strings. -/
def pyContains (pat s : String) : Bool := containsSeq pat.toList s.toList

/-- Model of Python `s.split(sep)` for a non-empty separator: split on
occurrences left to right, non-overlapping.  The fuel is only a recursion
bound; `length + 1` always suffices since every occurrence consumes at least
one character. -/
def splitSepList (sep : List Char) : Nat → List Char → List (List Char)
  | 0, l => [l]
  | f+1, l =>
    match findSplit sep l with
    | none => [l]
    | some (p, q) => p :: splitSepList sep f q

/-- Indexing into the parts of a split; Python raises `IndexError` when out of
range, which never happens at the two use sites because the surrounding
branch condition guarantees at least two parts. -/
def partAt (ps : List (List Char)) (i : Nat) : List Char := ps.getD i []

/-- Characters stripped by Python `str.strip()` (the ASCII ones; Python also
strips some further Unicode whitespace, which cannot occur adjacent to a
successfully parsed JSON value and so never matters in the properties
proved here). -/
def isPySpace (c : Char) : Bool :=
  c == ' ' || c == '\t' || c == '\n' || c == '\r' || c == '\x0b' || c == '\x0c'

/-- Model of Python `s.strip()` on character lists. -/
def pyStripList (l : List Char) : List Char :=
  ((l.dropWhile isPySpace).reverse.dropWhile isPySpace).reverse

/-- Model of the fence-stripping of `index.py` lines 163-166:
`response_content.split("```json")[1].split("```")[0].strip()` when a
` ```json ` fence is present, the untagged variant when only ` ``` ` is
present, and the identity otherwise. -/
def stripFences (s : String) : String :=
  let l := s.toList
  let fj := "```json".toList
  let f3 := "```".toList
  if containsSeq fj l then
    let part1 := partAt (splitSepList fj (l.length + 1) l) 1
    let part0 := partAt (splitSepList f3 (part1.length + 1) part1) 0
    String.mk (pyStripList part0)
  else if containsSeq f3 l then
    let part1 := partAt (splitSepList f3 (l.length + 1) l) 1
    let part0 := partAt (splitSepList f3 (part1.length + 1) part1) 0
    String.mk (pyStripList part0)
  else s

/-- Decoded in-memory image: what matters of a PIL `Image` for the geometric
properties (pixel data is irrelevant to every claim treated here). -/
structure Img where
  width : Nat
  height : Nat
  mode : String

/-- Result of the normalisation pipeline: the 512×512 canvas with the scaled
content pasted at an offset.  The final JPEG/base64 encoding is opaque and
not modelled. -/
structure Canvas where
  width : Nat
  height : Nat
  mode : String
  background : Nat × Nat × Nat
  contentW : Nat
  contentH : Nat
  offX : Int
  offY : Int

/-- Pillow's `round_aspect`: `max(min(floor(q), ceil(q), key=key), 1)` with
Python `min` preferring the first argument on ties. -/
def roundAspect (q : ℚ) (key : ℤ → ℚ) : Nat :=
  (max (if key ⌊q⌋ ≤ key ⌈q⌉ then ⌊q⌋ else ⌈q⌉) 1).toNat

/-- Pillow's `Image.thumbnail((512, 512))` size computation
(`preserve_aspect_ratio` in `Image.py`), in exact rational arithmetic: a
no-op when the image already fits, otherwise scale the larger side to 512,
rounding to the nearest aspect-preserving integer and never below 1. -/
def thumbnailSize (w h : Nat) : Nat × Nat :=
  if 512 ≥ w ∧ 512 ≥ h then (w, h)
  else if (512 : ℚ) / 512 ≥ (w : ℚ) / (h : ℚ) then
    (roundAspect (512 * ((w : ℚ) / (h : ℚ))) (fun n => |(w : ℚ) / (h : ℚ) - (n : ℚ) / 512|), 512)
  else
    (512, roundAspect (512 / ((w : ℚ) / (h : ℚ)))
      (fun n => if n = 0 then 0 else |(w : ℚ) / (h : ℚ) - (512 : ℚ) / (n : ℚ)|))

/-- Model of `encode_image` (lines 12-33): convert to RGB, `thumbnail` to at
most 512×512, paste centred onto a white 512×512 canvas.  The Python
offsets use floor division `//`, hence `Int.fdiv`. -/
def encode_image (img : Img) : Canvas :=
  let rgbMode := if img.mode = "RGB" then img.mode else "RGB"
  let tw := (thumbnailSize img.width img.height).1
  let th := (thumbnailSize img.width img.height).2
  { width := 512
    height := 512
    mode := rgbMode
    background := (255, 255, 255)
    contentW := tw
    contentH := th
    offX := Int.fdiv (512 - (tw : Int)) 2
    offY := Int.fdiv (512 - (th : Int)) 2 }

/-- Upstream response as the handler observes it: the HTTP status code, the
raw body text, and the outcome of
`response.json()['choices'][0]['message']['content']` (an `Except` so that a
missing key, modelling the raised `KeyError`, is representable). -/
structure UpstreamResp where
  statusCode : Nat
  text : String
  content : Except String String

/-- Handler outcome: the JSON response returned to the caller plus trace
flags recording whether the per-image processing loop ran, whether the
upstream request was issued, and whether the handler went on to read and
parse the upstream response content. -/
structure MainResult where
  response : Json
  processedImages : Bool
  calledUpstream : Bool
  parsedUpstream : Bool

/-- Failure response `{"success": false, "message": msg}`. -/
def mkFailure (msg : String) : Json :=
  .obj [("success", .bool false), ("message", .str msg)]

/-- Success response `{"success": true, "analyses": [...]}`. -/
def mkSuccess (xs : List Json) : Json :=
  .obj [("success", .bool true), ("analyses", .arr xs)]

/-- Look a key up in a parsed JSON object, as Python `dict` access does
(keys are unique after `dedupeEntries`). -/
def lookupEntry : List (String × Json) → String → Option Json
  | [], _ => none
  | (k, v) :: tl, key => if k = key then some v else lookupEntry tl key

/-- Zero test on a JSON number lexeme, deciding Python falsiness of the
number: every mantissa digit is `0` (ignoring sign, decimal point and
exponent); `NaN`/`Infinity` contain non-digits and are truthy. -/
def numIsZero (s : String) : Bool :=
  let cs := s.toList
  let cs1 := if cs.head? = some '-' then cs.tail else cs
  let mant := cs1.takeWhile (fun c => !(c == 'e' || c == 'E'))
  let digits := mant.filter (fun c => !(c == '.'))
  !digits.isEmpty && digits.all (fun c => c == '0')

/-- Python falsiness (`if not images:`) of a parsed JSON value. -/
def jsonFalsy : Json → Bool
  | .null => true
  | .bool b => !b
  | .num s => numIsZero s
  | .str s => s.isEmpty
  | .arr xs => xs.isEmpty
  | .obj kvs => kvs.isEmpty

/-- The `images` request field with Python's `.get('images', [])` default. -/
def imagesField (kvs : List (String × Json)) : Json :=
  (lookupEntry kvs "images").getD (.arr [])

/-- Model of `if not isinstance(images, list): images = [images]`, also used
for the single-object tolerance on the model output (lines 169-170). -/
def toJsonList (v : Json) : List Json :=
  match v with
  | .arr xs => xs
  | v => [v]

/-- Python falsiness of the `OPENAI_API_KEY` environment value: unset
(`None`) or empty string. -/
def keyMissing : Option String → Bool
  | none => true
  | some s => s.isEmpty

/-- Stamp `analysis["confidence"] = 0.9` on one item (line 174); a non-dict
item raises `TypeError`, modelled as the error branch. -/
def stampConfidence (j : Json) : Except String Json :=
  match j with
  | .obj kvs => .ok (.obj (insertEntry kvs "confidence" (.num "0.9")))
  | _ => .error "analysis item does not support item assignment"

/-- Stamp every analysis in order; the first failure aborts, as the Python
loop's raised exception would. -/
def stampAll : List Json → Except String (List Json)
  | [] => .ok []
  | j :: tl =>
    match stampConfidence j with
    | .error e => .error e
    | .ok j' =>
      match stampAll tl with
      | .error e => .error e
      | .ok tl' => .ok (j' :: tl')

/-- Normalise every submitted image in order via `encode_image`; `d` is the
oracle for `base64.b64decode` + `Image.open` (external libraries), whose
failure carries the underlying message, wrapped exactly as the
`ValueError(f"Error processing image: {e}")` of line 36. -/
def processImages (d : Json → Except String Img) : List Json → Except String (List Canvas)
  | [] => .ok []
  | j :: tl =>
    match d j with
    | .error e => .error ("Error processing image: " ++ e)
    | .ok i =>
      match processImages d tl with
      | .error e => .error e
      | .ok cs => .ok (encode_image i :: cs)

/-- Failure message for a non-200 upstream status (line 149). -/
def upstreamFailMsg (code : Nat) (body : String) : String :=
  "API request failed with status code " ++ toString code ++ ": " ++ body

/-- Placeholder detail for the `json.JSONDecodeError` raised when the model
output fails to parse; the Python message text differs but no property
depends on it. -/
def jsonDecodeErrMsg : String := "invalid JSON in model response"

/-- Placeholder detail for the `AttributeError` raised by
`body_data.get(...)` when the request body is valid JSON but not an object;
the Python message text differs but no property depends on it. -/
def attributeErrMsg : String := "request body is not a JSON object"

/-- Failure response produced by the outer `except` handler (lines 183-190). -/
def unexpectedResp (e : String) : Json := mkFailure ("Unexpected error: " ++ e)

/-- Model of the request handler `main` (lines 38-190); named `mainHandler`
because Lean reserves the name `main` for executable entry points.  Inputs: the raw
request body string, the `OPENAI_API_KEY` environment value, the image
decoding oracle, and the upstream response the single `requests.post` call
would observe.  Every Python exception is a value routed to the response
the outer `except` would build, so the function is total.  The case where
`requests.post` itself raises is modelled by `mainHandlerNet` below, of
which this function is the completed-response restriction. -/
def mainHandler (body : String) (apiKey : Option String) (d : Json → Except String Img)
    (u : UpstreamResp) : MainResult :=
  match parseJson body with
  | none => ⟨mkFailure "Invalid JSON format in request body", false, false, false⟩
  | some (.obj kvs) =>
    if jsonFalsy (imagesField kvs) then ⟨mkFailure "No images provided", false, false, false⟩
    else if keyMissing apiKey then
      ⟨mkFailure "OPENAI_API_KEY is missing from environment variables", false, false, false⟩
    else
      match processImages d (toJsonList (imagesField kvs)) with
      | .error e => ⟨unexpectedResp e, true, false, false⟩
      | .ok _ =>
        if u.statusCode ≠ 200 then
          ⟨mkFailure (upstreamFailMsg u.statusCode u.text), true, true, false⟩
        else
          match u.content with
          | .error e => ⟨unexpectedResp e, true, true, true⟩
          | .ok c =>
            match parseJson (stripFences c) with
            | none => ⟨unexpectedResp jsonDecodeErrMsg, true, true, true⟩
            | some v =>
              match stampAll (toJsonList v) with
              | .error e => ⟨unexpectedResp e, true, true, true⟩
              | .ok ys => ⟨mkSuccess ys, true, true, true⟩
  | some _ => ⟨unexpectedResp attributeErrMsg, false, false, false⟩

/-- Full invocation model in which the network call itself may fail:
`post` is the outcome of the `requests.post` call of line 145 — `.error e`
models the call raising (connection error, timeout, ...), an exception that
propagates to the outer `except` of line 183, while `.ok u` is a completed
HTTP response handled exactly as in `mainHandler`
(`mainHandler_eq_net` certifies the agreement).  The raise can only happen
once execution reaches line 145, that is, after body parsing, the images
and key checks, and image processing all succeeded. -/
def mainHandlerNet (body : String) (apiKey : Option String)
    (d : Json → Except String Img) (post : Except String UpstreamResp) : MainResult :=
  match parseJson body with
  | none => ⟨mkFailure "Invalid JSON format in request body", false, false, false⟩
  | some (.obj kvs) =>
    if jsonFalsy (imagesField kvs) then ⟨mkFailure "No images provided", false, false, false⟩
    else if keyMissing apiKey then
      ⟨mkFailure "OPENAI_API_KEY is missing from environment variables", false, false, false⟩
    else
      match processImages d (toJsonList (imagesField kvs)) with
      | .error e => ⟨unexpectedResp e, true, false, false⟩
      | .ok _ =>
        match post with
        | .error e => ⟨unexpectedResp e, true, true, false⟩
        | .ok u =>
          if u.statusCode ≠ 200 then
            ⟨mkFailure (upstreamFailMsg u.statusCode u.text), true, true, false⟩
          else
            match u.content with
            | .error e => ⟨unexpectedResp e, true, true, true⟩
            | .ok c =>
              match parseJson (stripFences c) with
              | none => ⟨unexpectedResp jsonDecodeErrMsg, true, true, true⟩
              | some v =>
                match stampAll (toJsonList v) with
                | .error e => ⟨unexpectedResp e, true, true, true⟩
                | .ok ys => ⟨mkSuccess ys, true, true, true⟩
  | some _ => ⟨unexpectedResp attributeErrMsg, false, false, false⟩

/-- The image list the handler extracts from a request body: `none` when the
body is rejected before processing (bad JSON, non-object body, or a falsy
`images` field), otherwise the list the processing loop iterates over. -/
def requestImages (body : String) : Option (List Json) :=
  match parseJson body with
  | some (.obj kvs) =>
    if jsonFalsy (imagesField kvs) then none else some (toJsonList (imagesField kvs))
  | _ => none

/-- Decidable check that every member of an analyses list is a JSON object
whose `confidence` entry is exactly the number lexeme `0.9`. -/
def confidenceAll (xs : List Json) : Bool :=
  xs.all fun j =>
    match j with
    | .obj kvs =>
      match lookupEntry kvs "confidence" with
      | some (.num s) => s == "0.9"
      | _ => false
    | _ => false

/-- Bound `roundAspect` by any integer bound at least 1 that dominates `q`. -/
lemma roundAspect_le (q : ℚ) (key : ℤ → ℚ) (n : ℕ) (h1 : 1 ≤ n) (hq : q ≤ (n : ℚ)) :
    roundAspect q key ≤ n := by
  unfold roundAspect
  have hc : ⌈q⌉ ≤ (n : ℤ) := Int.ceil_le.mpr (by exact_mod_cast hq)
  have hf : ⌊q⌋ ≤ (n : ℤ) := le_trans (Int.floor_le_ceil q) hc
  have hif : (if key ⌊q⌋ ≤ key ⌈q⌉ then ⌊q⌋ else ⌈q⌉) ≤ (n : ℤ) := by
    split <;> assumption
  have hmax : max (if key ⌊q⌋ ≤ key ⌈q⌉ then ⌊q⌋ else ⌈q⌉) 1 ≤ (n : ℤ) :=
    max_le hif (by exact_mod_cast h1)
  exact Int.toNat_le.mpr hmax

/-- The Pillow thumbnail computation never upscales: both result dimensions
are bounded by the originals. -/
lemma thumbnailSize_le (w h : Nat) (hw : 1 ≤ w) (hh : 1 ≤ h) :
    (thumbnailSize w h).1 ≤ w ∧ (thumbnailSize w h).2 ≤ h := by
  unfold thumbnailSize
  split
  · exact ⟨le_refl _, le_refl _⟩
  · rename_i hbig
    have hwq : (0 : ℚ) < (w : ℚ) := by exact_mod_cast hw
    have hhq : (0 : ℚ) < (h : ℚ) := by exact_mod_cast hh
    split
    · rename_i ha
      have ha1 : (w : ℚ) / (h : ℚ) ≤ 1 := by
        have : ((512 : ℚ) / 512) = 1 := by norm_num
        rw [this] at ha
        exact ha
      have hwh : (w : ℚ) ≤ (h : ℚ) := (div_le_one hhq).mp ha1
      have hwhn : w ≤ h := by exact_mod_cast hwh
      have hh5 : 512 < h := by
        rcases not_and_or.mp hbig with hb | hb <;> omega
      have hq : 512 * ((w : ℚ) / (h : ℚ)) ≤ (w : ℚ) := by
        rw [mul_div_assoc']
        rw [div_le_iff₀ hhq]
        have h5q : (512 : ℚ) ≤ (h : ℚ) := by exact_mod_cast le_of_lt hh5
        nlinarith
      refine ⟨?_, ?_⟩
      · exact roundAspect_le (512 * ((w : ℚ) / (h : ℚ)))
          (fun n => |(w : ℚ) / (h : ℚ) - (n : ℚ) / 512|) w hw hq
      · show (512 : ℕ) ≤ h
        omega
    · rename_i ha
      push_neg at ha
      have ha1 : 1 < (w : ℚ) / (h : ℚ) := by
        have h1 : ((512 : ℚ) / 512) = 1 := by norm_num
        rw [h1] at ha
        exact ha
      have hhw : (h : ℚ) < (w : ℚ) := (one_lt_div hhq).mp ha1
      have hhwn : h < w := by exact_mod_cast hhw
      have hw5 : 512 < w := by
        rcases not_and_or.mp hbig with hb | hb <;> omega
      have hq : 512 / ((w : ℚ) / (h : ℚ)) ≤ (h : ℚ) := by
        rw [div_le_iff₀ (by positivity)]
        have hcancel : (h : ℚ) * ((w : ℚ) / (h : ℚ)) = (w : ℚ) := by
          field_simp
        rw [hcancel]
        exact_mod_cast le_of_lt hw5
      refine ⟨?_, ?_⟩
      · show (512 : ℕ) ≤ w
        omega
      · exact roundAspect_le (512 / ((w : ℚ) / (h : ℚ)))
          (fun n => if n = 0 then 0 else |(w : ℚ) / (h : ℚ) - (512 : ℚ) / (n : ℚ)|) h hh hq

/-- A square image that already fits is left untouched by `thumbnail`. -/
lemma thumbnailSize_noop (w h : Nat) (hw : w ≤ 512) (hh : h ≤ 512) :
    thumbnailSize w h = (w, h) := by
  unfold thumbnailSize
  rw [if_pos ⟨hw, hh⟩]

/-- Claim C2: for every decoded input image, the normaliser's output canvas
is exactly 512×512 in three-channel RGB mode, whatever the input dimensions
or colour mode. -/
theorem c2_normalized_canvas (img : Img) :
    (encode_image img).width = 512 ∧ (encode_image img).height = 512 ∧
    (encode_image img).mode = "RGB" := by
  refine ⟨rfl, rfl, ?_⟩
  unfold encode_image
  dsimp only
  split
  · assumption
  · rfl

/-- Claim C8: the normaliser never upscales the content past its original
resolution, pastes it onto a solid-white 512×512 canvas at the centring
offset `floor((512 - scaled) / 2)` per axis, and for a square input of side
at most 512 the content keeps its size and the opposing margins are equal or
differ by exactly one pixel. -/
theorem c8_pad_and_center (img : Img) (hw : 1 ≤ img.width) (hh : 1 ≤ img.height) :
    (encode_image img).contentW ≤ img.width ∧
    (encode_image img).contentH ≤ img.height ∧
    (encode_image img).width = 512 ∧ (encode_image img).height = 512 ∧
    (encode_image img).background = (255, 255, 255) ∧
    (encode_image img).offX = Int.fdiv (512 - ((encode_image img).contentW : Int)) 2 ∧
    (encode_image img).offY = Int.fdiv (512 - ((encode_image img).contentH : Int)) 2 ∧
    (img.width = img.height → img.width ≤ 512 →
      (encode_image img).contentW = img.width ∧
      (encode_image img).contentH = img.height ∧
      ((512 - ((encode_image img).contentW : Int) - (encode_image img).offX) -
          (encode_image img).offX = 0 ∨
       (512 - ((encode_image img).contentW : Int) - (encode_image img).offX) -
          (encode_image img).offX = 1) ∧
      ((512 - ((encode_image img).contentH : Int) - (encode_image img).offY) -
          (encode_image img).offY = 0 ∨
       (512 - ((encode_image img).contentH : Int) - (encode_image img).offY) -
          (encode_image img).offY = 1)) := by
  obtain ⟨h1, h2⟩ := thumbnailSize_le img.width img.height hw hh
  refine ⟨h1, h2, rfl, rfl, rfl, rfl, rfl, ?_⟩
  intro hsq hle
  have hnoop : thumbnailSize img.width img.height = (img.width, img.height) :=
    thumbnailSize_noop _ _ hle (by omega)
  have hcw : (encode_image img).contentW = img.width := by
    show (thumbnailSize img.width img.height).1 = img.width
    rw [hnoop]
  have hch : (encode_image img).contentH = img.height := by
    show (thumbnailSize img.width img.height).2 = img.height
    rw [hnoop]
  refine ⟨hcw, hch, ?_, ?_⟩
  · have hox : (encode_image img).offX =
        Int.fdiv (512 - ((encode_image img).contentW : Int)) 2 := rfl
    rw [hox, hcw]
    have hnn : (0 : Int) ≤ 512 - (img.width : Int) := by
      have : (img.width : Int) ≤ 512 := by exact_mod_cast hle
      omega
    rw [Int.fdiv_eq_ediv _ (by norm_num : (0 : Int) ≤ 2)]
    omega
  · have hoy : (encode_image img).offY =
        Int.fdiv (512 - ((encode_image img).contentH : Int)) 2 := rfl
    rw [hoy, hch]
    have : (img.height : Int) ≤ 512 := by
      have : img.height ≤ 512 := by omega
      exact_mod_cast this
    rw [Int.fdiv_eq_ediv _ (by norm_num : (0 : Int) ≤ 2)]
    omega

/-- Witness for C8 at a concrete 300×300 RGB input. -/
theorem c8_pad_and_center_witness :
    (encode_image ⟨300, 300, "RGB"⟩).contentW ≤ 300 ∧
    (encode_image ⟨300, 300, "RGB"⟩).contentH ≤ 300 ∧
    (encode_image ⟨300, 300, "RGB"⟩).width = 512 ∧
    (encode_image ⟨300, 300, "RGB"⟩).height = 512 ∧
    (encode_image ⟨300, 300, "RGB"⟩).background = (255, 255, 255) ∧
    (encode_image ⟨300, 300, "RGB"⟩).offX =
      Int.fdiv (512 - ((encode_image ⟨300, 300, "RGB"⟩).contentW : Int)) 2 ∧
    (encode_image ⟨300, 300, "RGB"⟩).offY =
      Int.fdiv (512 - ((encode_image ⟨300, 300, "RGB"⟩).contentH : Int)) 2 ∧
    ((300 : Nat) = 300 → (300 : Nat) ≤ 512 →
      (encode_image ⟨300, 300, "RGB"⟩).contentW = 300 ∧
      (encode_image ⟨300, 300, "RGB"⟩).contentH = 300 ∧
      ((512 - ((encode_image ⟨300, 300, "RGB"⟩).contentW : Int) -
          (encode_image ⟨300, 300, "RGB"⟩).offX) -
          (encode_image ⟨300, 300, "RGB"⟩).offX = 0 ∨
       (512 - ((encode_image ⟨300, 300, "RGB"⟩).contentW : Int) -
          (encode_image ⟨300, 300, "RGB"⟩).offX) -
          (encode_image ⟨300, 300, "RGB"⟩).offX = 1) ∧
      ((512 - ((encode_image ⟨300, 300, "RGB"⟩).contentH : Int) -
          (encode_image ⟨300, 300, "RGB"⟩).offY) -
          (encode_image ⟨300, 300, "RGB"⟩).offY = 0 ∨
       (512 - ((encode_image ⟨300, 300, "RGB"⟩).contentH : Int) -
          (encode_image ⟨300, 300, "RGB"⟩).offY) -
          (encode_image ⟨300, 300, "RGB"⟩).offY = 1)) :=
  c8_pad_and_center ⟨300, 300, "RGB"⟩ (by decide) (by decide)

/-- Unfold `String.toList` to the underlying character list. -/
lemma string_toList_eq (s : String) : s.toList = s.data := rfl

/-- Looking up the key just written by `insertEntry` returns the new value. -/
lemma lookupEntry_insertEntry (kvs : List (String × Json)) (k : String) (v : Json) :
    lookupEntry (insertEntry kvs k v) k = some v := by
  induction kvs with
  | nil => simp [insertEntry, lookupEntry]
  | cons hd tl ih =>
    obtain ⟨k', w⟩ := hd
    by_cases hk : k' = k
    · simp [insertEntry, hk, lookupEntry]
    · simp [insertEntry, hk, lookupEntry, ih]

/-- Inversion for a successful confidence stamp on one item. -/
lemma stampConfidence_ok (j j' : Json) (h : stampConfidence j = .ok j') :
    ∃ kvs, j = .obj kvs ∧ j' = .obj (insertEntry kvs "confidence" (.num "0.9")) := by
  cases j <;> simp [stampConfidence] at h
  case obj kvs => exact ⟨kvs, rfl, h.symm⟩

/-- Every output of a successful stamping pass carries `confidence = 0.9`. -/
lemma stampAll_confidenceAll (l ys : List Json) (h : stampAll l = .ok ys) :
    confidenceAll ys = true := by
  induction l generalizing ys with
  | nil =>
    simp [stampAll] at h
    subst h
    rfl
  | cons j tl ih =>
    simp only [stampAll] at h
    split at h
    · exact absurd h (by simp)
    · rename_i j' hj
      split at h
      · exact absurd h (by simp)
      · rename_i tl' htl
        have hys : ys = j' :: tl' := by
          simpa using h.symm
        subst hys
        obtain ⟨kvs, _, hj'⟩ := stampConfidence_ok j j' hj
        subst hj'
        have hrest := ih tl' htl
        simp only [confidenceAll, List.all_cons, Bool.and_eq_true] at hrest ⊢
        refine ⟨?_, hrest⟩
        rw [lookupEntry_insertEntry]
        simp

/-- Stamping preserves the number of analyses. -/
lemma stampAll_length (l ys : List Json) (h : stampAll l = .ok ys) :
    ys.length = l.length := by
  induction l generalizing ys with
  | nil =>
    simp [stampAll] at h
    subst h
    rfl
  | cons j tl ih =>
    simp only [stampAll] at h
    split at h
    · exact absurd h (by simp)
    · rename_i j' hj
      split at h
      · exact absurd h (by simp)
      · rename_i tl' htl
        have hys : ys = j' :: tl' := by simpa using h.symm
        subst hys
        simp [ih tl' htl]

/-- A successful processing pass decoded every submitted image. -/
lemma processImages_ok_mem (d : Json → Except String Img) (l : List Json)
    (cs : List Canvas) (h : processImages d l = .ok cs) :
    ∀ j ∈ l, ∃ i, d j = .ok i := by
  induction l generalizing cs with
  | nil => intro j hj; cases hj
  | cons j0 tl ih =>
    intro j hj
    simp only [processImages] at h
    split at h
    · exact absurd h (by simp)
    · rename_i i hi
      split at h
      · exact absurd h (by simp)
      · rename_i cs' hcs
        rcases List.mem_cons.mp hj with hj | hj
        · exact ⟨i, hj ▸ hi⟩
        · exact ih cs' hcs j hj

/-- Inversion of a success response: the handler reached the end of the
pipeline, so every stage succeeded and the analyses are the stamped parse of
the upstream content. -/
lemma mainHandler_success_inv (b : String) (k : Option String)
    (d : Json → Except String Img) (u : UpstreamResp) (xs : List Json)
    (h : (mainHandler b k d u).response = mkSuccess xs) :
    ∃ kvs c v,
      parseJson b = some (.obj kvs) ∧
      jsonFalsy (imagesField kvs) = false ∧
      keyMissing k = false ∧
      (∃ cs, processImages d (toJsonList (imagesField kvs)) = Except.ok cs) ∧
      u.statusCode = 200 ∧
      u.content = .ok c ∧
      parseJson (stripFences c) = some v ∧
      stampAll (toJsonList v) = .ok xs := by
  unfold mainHandler at h
  split at h
  · exact absurd h (by simp [mkFailure, mkSuccess])
  · rename_i kvs heq
    split at h
    · exact absurd h (by simp [mkFailure, mkSuccess])
    · rename_i hfal
      split at h
      · exact absurd h (by simp [mkFailure, mkSuccess])
      · rename_i hkey
        split at h
        · exact absurd h (by simp [unexpectedResp, mkFailure, mkSuccess])
        · rename_i cs hproc
          split at h
          · exact absurd h (by simp [mkFailure, mkSuccess])
          · rename_i hstat
            split at h
            · exact absurd h (by simp [unexpectedResp, mkFailure, mkSuccess])
            · rename_i c hcont
              split at h
              · exact absurd h (by simp [unexpectedResp, mkFailure, mkSuccess])
              · rename_i v hv
                split at h
                · exact absurd h (by simp [unexpectedResp, mkFailure, mkSuccess])
                · rename_i ys hstamp
                  have hys : ys = xs := by simpa [mkSuccess] using h
                  subst hys
                  refine ⟨kvs, c, v, heq, by simpa using hfal, by simpa using hkey,
                    ⟨cs, hproc⟩, by omega, hcont, hv, hstamp⟩
  · exact absurd h (by simp [unexpectedResp, mkFailure, mkSuccess])

/-- Inversion of the upstream-call trace flag: the request was only issued
after body parsing, the images check, the key check and image processing all
succeeded. -/
lemma mainHandler_called_inv (b : String) (k : Option String)
    (d : Json → Except String Img) (u : UpstreamResp)
    (h : (mainHandler b k d u).calledUpstream = true) :
    ∃ kvs cs,
      parseJson b = some (.obj kvs) ∧
      jsonFalsy (imagesField kvs) = false ∧
      keyMissing k = false ∧
      processImages d (toJsonList (imagesField kvs)) = Except.ok cs := by
  unfold mainHandler at h
  split at h
  · exact absurd h (by simp)
  · rename_i kvs heq
    split at h
    · exact absurd h (by simp)
    · rename_i hfal
      split at h
      · exact absurd h (by simp)
      · rename_i hkey
        split at h
        · exact absurd h (by simp)
        · rename_i cs hproc
          exact ⟨kvs, cs, heq, by simpa using hfal, by simpa using hkey, hproc⟩
  · exact absurd h (by simp)

/-- Forward evaluation of the handler when every stage succeeds. -/
lemma mainHandler_ok_eval (b : String) (k : Option String)
    (d : Json → Except String Img) (u : UpstreamResp)
    (kvs : List (String × Json)) (cs : List Canvas) (c : String) (v : Json)
    (ys : List Json)
    (hb : parseJson b = some (.obj kvs))
    (hfal : jsonFalsy (imagesField kvs) = false)
    (hkey : keyMissing k = false)
    (hproc : processImages d (toJsonList (imagesField kvs)) = Except.ok cs)
    (h200 : u.statusCode = 200)
    (hc : u.content = Except.ok c)
    (hp : parseJson (stripFences c) = some v)
    (hst : stampAll (toJsonList v) = Except.ok ys) :
    mainHandler b k d u = ⟨mkSuccess ys, true, true, true⟩ := by
  unfold mainHandler
  rw [hb]
  simp [hfal, hkey, hproc, h200, hc, hp, hst]

/-- Forward evaluation of the handler when the upstream status is not 200. -/
lemma mainHandler_err_eval (b : String) (k : Option String)
    (d : Json → Except String Img) (u : UpstreamResp)
    (kvs : List (String × Json)) (cs : List Canvas)
    (hb : parseJson b = some (.obj kvs))
    (hfal : jsonFalsy (imagesField kvs) = false)
    (hkey : keyMissing k = false)
    (hproc : processImages d (toJsonList (imagesField kvs)) = Except.ok cs)
    (hs : u.statusCode ≠ 200) :
    mainHandler b k d u =
      ⟨mkFailure (upstreamFailMsg u.statusCode u.text), true, true, false⟩ := by
  unfold mainHandler
  rw [hb]
  simp [hfal, hkey, hproc, hs]

/-- Shared result for a missing or empty `images` field: the handler rejects
the request before processing images or calling upstream. -/
lemma noImages_result (b : String) (k : Option String)
    (d : Json → Except String Img) (u : UpstreamResp) (kvs : List (String × Json))
    (hb : parseJson b = some (.obj kvs))
    (him : lookupEntry kvs "images" = none ∨ lookupEntry kvs "images" = some (.arr [])) :
    mainHandler b k d u = ⟨mkFailure "No images provided", false, false, false⟩ := by
  have hf : jsonFalsy (imagesField kvs) = true := by
    unfold imagesField
    rcases him with him | him <;> rw [him] <;> simp [jsonFalsy]
  unfold mainHandler
  rw [hb]
  simp [hf]

/-- On a completed HTTP response the full invocation model agrees with
`mainHandler`. -/
lemma mainHandler_eq_net (b : String) (k : Option String)
    (d : Json → Except String Img) (u : UpstreamResp) :
    mainHandlerNet b k d (.ok u) = mainHandler b k d u := by
  unfold mainHandler mainHandlerNet
  split
  · rfl
  · split
    · rfl
    · split
      · rfl
      · split
        · rfl
        · rfl
  · rfl

/-- An explicit occurrence makes `findSplit` succeed. -/
lemma findSplit_isSome (sep l a b : List Char) (hl : l = a ++ (sep ++ b)) :
    (findSplit sep l).isSome = true := by
  induction a generalizing l with
  | nil =>
    subst hl
    simp only [List.nil_append]
    match hsb : sep ++ b with
    | [] =>
      have hsep : sep = [] := by
        cases sep with
        | nil => rfl
        | cons x xs => simp at hsb
      simp [findSplit, hsep]
    | c :: tl =>
      have hpre : sep.isPrefixOf (c :: tl) = true := by
        rw [← hsb]
        exact List.isPrefixOf_iff_prefix.mpr (List.prefix_append sep b)
      simp [findSplit, hpre]
  | cons c a' ih =>
    subst hl
    simp only [List.cons_append]
    unfold findSplit
    split
    · simp
    · have := ih (a' ++ (sep ++ b)) rfl
      match hf : findSplit sep (a' ++ (sep ++ b)) with
      | some (p, q) => simp
      | none => rw [hf] at this; simp at this

/-- The failure message for an upstream error contains the status code. -/
lemma upstreamFailMsg_contains_code (code : Nat) (body : String) :
    pyContains (toString code) (upstreamFailMsg code body) = true := by
  unfold pyContains containsSeq upstreamFailMsg
  apply findSplit_isSome _ _ ("API request failed with status code ".toList)
    ((": " ++ body).toList)
  simp [string_toList_eq, List.append_assoc]

/-- The failure message for an upstream error contains the raw error body. -/
lemma upstreamFailMsg_contains_body (code : Nat) (body : String) :
    pyContains body (upstreamFailMsg code body) = true := by
  unfold pyContains containsSeq upstreamFailMsg
  apply findSplit_isSome _ _
    (("API request failed with status code " ++ toString code ++ ": ").toList)
    ([] : List Char)
  simp [string_toList_eq, List.append_assoc]

/-- Claim C1: every analysis item in a success response is a JSON object
whose `confidence` field is exactly the fixed 0.9, whatever the model
supplied. -/
theorem c1_confidence_fixed (b : String) (k : Option String)
    (d : Json → Except String Img) (u : UpstreamResp) (xs : List Json)
    (h : (mainHandler b k d u).response = mkSuccess xs) :
    confidenceAll xs = true := by
  obtain ⟨kvs, c, v, _, _, _, _, _, _, _, hstamp⟩ := mainHandler_success_inv b k d u xs h
  exact stampAll_confidenceAll _ _ hstamp

/-- Witness for C1: a concrete successful invocation whose single analysis
carries `confidence = 0.9`. -/
theorem c1_confidence_fixed_witness :
    confidenceAll [Json.obj [("confidence", Json.num "0.9")]] = true :=
  c1_confidence_fixed "\x7b\"images\": [\"x\"]\x7d" (some "k")
    (fun _ => Except.ok ⟨8, 8, "RGB"⟩) ⟨200, "", Except.ok "[\x7b\x7d]"⟩
    [Json.obj [("confidence", Json.num "0.9")]] (by rfl)

/-- Claim C4: a request whose `images` field is missing or the empty list is
rejected with the `No images provided` failure, before any image processing
and before the upstream call. -/
theorem c4_no_images_short_circuit (b : String) (k : Option String)
    (d : Json → Except String Img) (u : UpstreamResp) (kvs : List (String × Json))
    (hb : parseJson b = some (.obj kvs))
    (him : lookupEntry kvs "images" = none ∨ lookupEntry kvs "images" = some (.arr [])) :
    mainHandler b k d u = ⟨mkFailure "No images provided", false, false, false⟩ :=
  noImages_result b k d u kvs hb him

/-- Witness for C4: a body with no `images` key. -/
theorem c4_no_images_short_circuit_witness :
    mainHandler "\x7b\x7d" (some "k") (fun _ => Except.error "no decoder")
      ⟨200, "", Except.ok "[]"⟩ = ⟨mkFailure "No images provided", false, false, false⟩ :=
  c4_no_images_short_circuit _ _ _ _ [] (by rfl) (Or.inl rfl)

/-- Claim C10: the `images` check runs before the API-key check, so a request
with missing or empty images gets `No images provided` even when the
`OPENAI_API_KEY` environment value is absent, and never the missing-key
message. -/
theorem c10_images_checked_before_key (b : String)
    (d : Json → Except String Img) (u : UpstreamResp) (kvs : List (String × Json))
    (hb : parseJson b = some (.obj kvs))
    (him : lookupEntry kvs "images" = none ∨ lookupEntry kvs "images" = some (.arr [])) :
    (mainHandler b none d u).response = mkFailure "No images provided" ∧
    (mainHandler b none d u).response ≠
      mkFailure "OPENAI_API_KEY is missing from environment variables" := by
  have h := noImages_result b none d u kvs hb him
  rw [h]
  refine ⟨rfl, ?_⟩
  simp [mkFailure]

/-- Witness for C10: a body with an empty images list and no API key. -/
theorem c10_images_checked_before_key_witness :
    (mainHandler "\x7b\"images\": []\x7d" none (fun _ => Except.error "no decoder")
        ⟨200, "", Except.ok "[]"⟩).response = mkFailure "No images provided" ∧
    (mainHandler "\x7b\"images\": []\x7d" none (fun _ => Except.error "no decoder")
        ⟨200, "", Except.ok "[]"⟩).response ≠
      mkFailure "OPENAI_API_KEY is missing from environment variables" :=
  c10_images_checked_before_key _ _ _ [("images", Json.arr [])] (by rfl) (Or.inr rfl)

/-- Claim C9: on every input and every upstream behaviour — including the
network call itself raising (`post = .error`), image decoding failing, and
response parsing failing — the handler returns a structured response, either
a failure with a message or a success with an analyses array; and a success
implies every submitted image was decoded (no partial per-image results). -/
theorem c9_always_structured (b : String) (k : Option String)
    (d : Json → Except String Img) (post : Except String UpstreamResp) :
    ((∃ m, (mainHandlerNet b k d post).response = mkFailure m) ∨
      (∃ xs, (mainHandlerNet b k d post).response = mkSuccess xs)) ∧
    (∀ xs, (mainHandlerNet b k d post).response = mkSuccess xs →
      ∃ l, requestImages b = some l ∧ ∀ j ∈ l, ∃ i, d j = Except.ok i) := by
  constructor
  · unfold mainHandlerNet
    split
    · exact Or.inl ⟨_, rfl⟩
    · split
      · exact Or.inl ⟨_, rfl⟩
      · split
        · exact Or.inl ⟨_, rfl⟩
        · split
          · exact Or.inl ⟨_, rfl⟩
          · split
            · exact Or.inl ⟨_, rfl⟩
            · split
              · exact Or.inl ⟨_, rfl⟩
              · split
                · exact Or.inl ⟨_, rfl⟩
                · split
                  · exact Or.inl ⟨_, rfl⟩
                  · split
                    · exact Or.inl ⟨_, rfl⟩
                    · exact Or.inr ⟨_, rfl⟩
    · exact Or.inl ⟨_, rfl⟩
  · intro xs h
    cases post with
    | error e =>
      exfalso
      unfold mainHandlerNet at h
      split at h
      · exact absurd h (by simp [mkFailure, mkSuccess])
      · split at h
        · exact absurd h (by simp [mkFailure, mkSuccess])
        · split at h
          · exact absurd h (by simp [mkFailure, mkSuccess])
          · split at h
            · exact absurd h (by simp [unexpectedResp, mkFailure, mkSuccess])
            · exact absurd h (by simp [unexpectedResp, mkFailure, mkSuccess])
      · exact absurd h (by simp [unexpectedResp, mkFailure, mkSuccess])
    | ok u =>
      rw [mainHandler_eq_net b k d u] at h
      obtain ⟨kvs, c, v, heq, hfal, _, ⟨cs, hproc⟩, _, _, _, _⟩ :=
        mainHandler_success_inv b k d u xs h
      refine ⟨toJsonList (imagesField kvs), ?_, processImages_ok_mem d _ cs hproc⟩
      unfold requestImages
      rw [heq]
      simp [hfal]

/-- Witness for C9 at a concrete request whose network call raises. -/
theorem c9_always_structured_witness :
    ((∃ m, (mainHandlerNet "\x7b\"images\": [\"x\"]\x7d" (some "k")
        (fun _ => Except.ok ⟨8, 8, "RGB"⟩)
        (Except.error "connection refused")).response = mkFailure m) ∨
      (∃ xs, (mainHandlerNet "\x7b\"images\": [\"x\"]\x7d" (some "k")
        (fun _ => Except.ok ⟨8, 8, "RGB"⟩)
        (Except.error "connection refused")).response = mkSuccess xs)) ∧
    (∀ xs, (mainHandlerNet "\x7b\"images\": [\"x\"]\x7d" (some "k")
        (fun _ => Except.ok ⟨8, 8, "RGB"⟩)
        (Except.error "connection refused")).response = mkSuccess xs →
      ∃ l, requestImages "\x7b\"images\": [\"x\"]\x7d" = some l ∧
        ∀ j ∈ l, ∃ i, (fun _ => (Except.ok ⟨8, 8, "RGB"⟩ : Except String Img)) j
          = Except.ok i) :=
  c9_always_structured "\x7b\"images\": [\"x\"]\x7d" (some "k")
    (fun _ => Except.ok ⟨8, 8, "RGB"⟩) (Except.error "connection refused")

/-- Claim C6: when the extracted upstream text parses as a single JSON object
rather than an array, the handler returns a one-element analyses array
wrapping that object (with its confidence stamped per the fixed-value rule). -/
theorem c6_single_object_wrapped (b : String) (k : Option String)
    (d : Json → Except String Img) (u : UpstreamResp) (c : String)
    (kvs : List (String × Json))
    (hcall : (mainHandler b k d u).calledUpstream = true)
    (h200 : u.statusCode = 200)
    (hc : u.content = Except.ok c)
    (hp : parseJson (stripFences c) = some (.obj kvs)) :
    (mainHandler b k d u).response =
      mkSuccess [Json.obj (insertEntry kvs "confidence" (Json.num "0.9"))] := by
  obtain ⟨kvs0, cs, hb, hfal, hkey, hproc⟩ := mainHandler_called_inv b k d u hcall
  rw [mainHandler_ok_eval b k d u kvs0 cs c (Json.obj kvs)
    [Json.obj (insertEntry kvs "confidence" (Json.num "0.9"))]
    hb hfal hkey hproc h200 hc hp (by rfl)]

/-- Witness for C6: a concrete upstream response carrying one JSON object. -/
theorem c6_single_object_wrapped_witness :
    (mainHandler "\x7b\"images\": [\"x\"]\x7d" (some "k")
        (fun _ => Except.ok ⟨8, 8, "RGB"⟩)
        ⟨200, "", Except.ok "\x7b\"type\": \"shirt\"\x7d"⟩).response =
      mkSuccess [Json.obj (insertEntry [("type", Json.str "shirt")] "confidence"
        (Json.num "0.9"))] :=
  c6_single_object_wrapped _ _ _ _ "\x7b\"type\": \"shirt\"\x7d"
    [("type", Json.str "shirt")] (by rfl) rfl rfl (by rfl)

/-- Claim C7: a non-200 upstream status yields a failure whose message embeds
both the status code and the raw body; the handler does not read or parse the
response content (the trace flag is unset and the result is independent of
the content). -/
theorem c7_upstream_error_passthrough (b : String) (k : Option String)
    (d : Json → Except String Img) (u : UpstreamResp)
    (hcall : (mainHandler b k d u).calledUpstream = true)
    (hs : u.statusCode ≠ 200) :
    (mainHandler b k d u).response = mkFailure (upstreamFailMsg u.statusCode u.text) ∧
    (mainHandler b k d u).parsedUpstream = false ∧
    pyContains (toString u.statusCode) (upstreamFailMsg u.statusCode u.text) = true ∧
    pyContains u.text (upstreamFailMsg u.statusCode u.text) = true ∧
    ∀ c', mainHandler b k d ⟨u.statusCode, u.text, c'⟩ = mainHandler b k d u := by
  obtain ⟨kvs, cs, hb, hfal, hkey, hproc⟩ := mainHandler_called_inv b k d u hcall
  have he := mainHandler_err_eval b k d u kvs cs hb hfal hkey hproc hs
  refine ⟨by rw [he], by rw [he], upstreamFailMsg_contains_code _ _,
    upstreamFailMsg_contains_body _ _, ?_⟩
  intro c'
  have he' := mainHandler_err_eval b k d ⟨u.statusCode, u.text, c'⟩ kvs cs hb hfal hkey hproc hs
  rw [he, he']

/-- Witness for C7: a concrete upstream 500 with body `boom`. -/
theorem c7_upstream_error_passthrough_witness :
    (mainHandler "\x7b\"images\": [\"x\"]\x7d" (some "k")
        (fun _ => Except.ok ⟨8, 8, "RGB"⟩) ⟨500, "boom", Except.ok "[]"⟩).response =
      mkFailure (upstreamFailMsg 500 "boom") ∧
    (mainHandler "\x7b\"images\": [\"x\"]\x7d" (some "k")
        (fun _ => Except.ok ⟨8, 8, "RGB"⟩) ⟨500, "boom", Except.ok "[]"⟩).parsedUpstream =
      false ∧
    pyContains (toString 500) (upstreamFailMsg 500 "boom") = true ∧
    pyContains "boom" (upstreamFailMsg 500 "boom") = true ∧
    ∀ c', mainHandler "\x7b\"images\": [\"x\"]\x7d" (some "k")
        (fun _ => Except.ok ⟨8, 8, "RGB"⟩) ⟨500, "boom", c'⟩ =
      mainHandler "\x7b\"images\": [\"x\"]\x7d" (some "k")
        (fun _ => Except.ok ⟨8, 8, "RGB"⟩) ⟨500, "boom", Except.ok "[]"⟩ :=
  c7_upstream_error_passthrough _ _ _ _ (by rfl) (by decide)

/-- Counterexample to claim C3 as stated: a successful invocation submitting
two images for which the model returned a single object, so the returned
analyses array has length one, not the input length two — the handler never
checks the model's item count against the number of images. -/
theorem c3_counterexample :
    (mainHandler "\x7b\"images\": [\"a\", \"b\"]\x7d" (some "k")
        (fun _ => Except.ok ⟨8, 8, "RGB"⟩) ⟨200, "", Except.ok "[\x7b\x7d]"⟩).response =
      mkSuccess [Json.obj [("confidence", Json.num "0.9")]] ∧
    requestImages "\x7b\"images\": [\"a\", \"b\"]\x7d" = some [Json.str "a", Json.str "b"] ∧
    ([Json.obj [("confidence", Json.num "0.9")]] : List Json).length ≠
      ([Json.str "a", Json.str "b"] : List Json).length :=
  ⟨by rfl, by rfl, by decide⟩

/-- Claim C3 as amended: the analyses array of a success response is exactly
the stamped parse of the upstream content (a lone object wrapped into a
one-element array), so its length is the number of items the model returned;
that number is passed through unchecked rather than validated against the
number of submitted images. -/
theorem c3_amended_model_output (b : String) (k : Option String)
    (d : Json → Except String Img) (u : UpstreamResp) (c : String) (v : Json)
    (ys : List Json)
    (hcall : (mainHandler b k d u).calledUpstream = true)
    (h200 : u.statusCode = 200)
    (hc : u.content = Except.ok c)
    (hp : parseJson (stripFences c) = some v)
    (hst : stampAll (toJsonList v) = Except.ok ys) :
    (mainHandler b k d u).response = mkSuccess ys ∧
    ys.length = (toJsonList v).length := by
  obtain ⟨kvs, cs, hb, hfal, hkey, hproc⟩ := mainHandler_called_inv b k d u hcall
  rw [mainHandler_ok_eval b k d u kvs cs c v ys hb hfal hkey hproc h200 hc hp hst]
  exact ⟨rfl, stampAll_length _ _ hst⟩

/-- Witness for the amended C3 at the counterexample input. -/
theorem c3_amended_model_output_witness :
    (mainHandler "\x7b\"images\": [\"a\", \"b\"]\x7d" (some "k")
        (fun _ => Except.ok ⟨8, 8, "RGB"⟩) ⟨200, "", Except.ok "[\x7b\x7d]"⟩).response =
      mkSuccess [Json.obj [("confidence", Json.num "0.9")]] ∧
    ([Json.obj [("confidence", Json.num "0.9")]] : List Json).length =
      (toJsonList (Json.arr [Json.obj []])).length :=
  c3_amended_model_output _ _ _ _ "[\x7b\x7d]" (Json.arr [Json.obj []]) _
    (by rfl) rfl rfl (by rfl) (by rfl)

/-- Cutting an untouched suffix `b` out of a whitespace/digit span: if the
span over `x ++ b` stops before `b`, it computes the same split on `x`
alone. -/
lemma dropWhile_append_cut (p : Char → Bool) (x b r' : List Char)
    (h : (x ++ b).dropWhile p = r' ++ b) :
    x.dropWhile p = r' ∧ (x ++ b).takeWhile p = x.takeWhile p := by
  rw [List.dropWhile_append] at h
  split at h
  · rename_i he
    have hx : x.dropWhile p = [] := by
      cases hxe : x.dropWhile p with
      | nil => rfl
      | cons y ys => rw [hxe] at he; simp at he
    have hall : ∀ a ∈ x, p a := List.dropWhile_eq_nil_iff.mp hx
    have hlen := congrArg List.length h
    rw [List.length_append] at hlen
    have hle : (b.dropWhile p).length ≤ b.length := (List.dropWhile_suffix p).length_le
    have hr : r' = [] := by
      cases r' with
      | nil => rfl
      | cons y ys => simp at hlen; omega
    subst hr
    simp only [List.nil_append] at h
    have htb : b.takeWhile p = [] := by
      have := List.takeWhile_append_dropWhile p b
      rw [h] at this
      have hlen2 := congrArg List.length this
      rw [List.length_append] at hlen2
      cases htbe : b.takeWhile p with
      | nil => rfl
      | cons y ys => rw [htbe] at hlen2; simp at hlen2
    constructor
    · exact hx
    · rw [List.takeWhile_append_of_pos hall, htb, List.append_nil]
      exact ((List.takeWhile_eq_self_iff).mpr hall).symm
  · rename_i he
    constructor
    · exact List.append_cancel_right h
    · rw [List.takeWhile_append]
      split
      · rename_i hlen
        exfalso
        have := List.takeWhile_append_dropWhile p x
        have hlen2 := congrArg List.length this
        rw [List.length_append] at hlen2
        have hd : (x.dropWhile p).length = 0 := by omega
        rw [List.length_eq_zero] at hd
        rw [hd] at he
        simp at he
      · rfl

/-- The exponent parser returns a decomposition of its input. -/
lemma parseExpPart_decomp (l ex out : List Char) (h : parseExpPart l = (ex, out)) :
    l = ex ++ out := by
  unfold parseExpPart at h
  split at h
  · rename_i e tl
    split at h
    · split at h
      · rename_i s tl2
        split at h
        · split at h
          · injection h with h1 h2; subst h1; subst h2; rfl
          · injection h with h1 h2
            subst h1; subst h2
            simp [List.takeWhile_append_dropWhile]
        · split at h
          · injection h with h1 h2; subst h1; subst h2; rfl
          · injection h with h1 h2
            subst h1; subst h2
            simp [List.takeWhile_append_dropWhile]
      · injection h with h1 h2; subst h1; subst h2; rfl
    · injection h with h1 h2; subst h1; subst h2; rfl
  · injection h with h1 h2; subst h1; subst h2; rfl

/-- An empty span over an appended list gives an empty span on the left part. -/
lemma takeWhile_append_nil (p : Char → Bool) (x b : List Char)
    (h : (x ++ b).takeWhile p = []) : x.takeWhile p = [] := by
  cases x with
  | nil => rfl
  | cons c tl =>
    simp only [List.cons_append, List.takeWhile_cons] at h ⊢
    split at h
    · simp at h
    · rename_i hc
      rw [if_neg hc]

/-- The fraction-exponent parser returns a decomposition of its input. -/
lemma parseFracExp_decomp (l fe out : List Char) (h : parseFracExp l = (fe, out)) :
    l = fe ++ out := by
  unfold parseFracExp at h
  split at h
  · injection h with h1 h2; subst h1; subst h2; rfl
  · rename_i c tl
    split at h
    · rename_i hc
      subst hc
      split at h
      · exact parseExpPart_decomp _ _ _ h
      · injection h with h1 h2
        subst h1; subst h2
        have hd := parseExpPart_decomp (tl.dropWhile Char.isDigit)
          (parseExpPart (tl.dropWhile Char.isDigit)).1
          (parseExpPart (tl.dropWhile Char.isDigit)).2 rfl
        simp only [List.cons_append, List.append_assoc]
        rw [← hd]
        simp [List.takeWhile_append_dropWhile]
    · exact parseExpPart_decomp _ _ _ h

/-- The unsigned number parser returns a non-empty decomposition. -/
lemma parseNumberCore_decomp (l cs out : List Char) (h : parseNumberCore l = some (cs, out)) :
    l = cs ++ out ∧ cs ≠ [] := by
  unfold parseNumberCore at h
  split at h
  · simp at h
  · rename_i c tl
    split at h
    · rename_i hc
      subst hc
      simp only [Option.some.injEq, Prod.mk.injEq] at h
      obtain ⟨h1, h2⟩ := h
      subst h1; subst h2
      have hd := parseFracExp_decomp tl (parseFracExp tl).1 (parseFracExp tl).2 rfl
      constructor
      · simp only [List.cons_append]
        rw [← hd]
      · simp
    · split at h
      · simp only [Option.some.injEq, Prod.mk.injEq] at h
        obtain ⟨h1, h2⟩ := h
        subst h1; subst h2
        have hd := parseFracExp_decomp (tl.dropWhile Char.isDigit)
          (parseFracExp (tl.dropWhile Char.isDigit)).1
          (parseFracExp (tl.dropWhile Char.isDigit)).2 rfl
        constructor
        · simp only [List.cons_append, List.append_assoc]
          rw [← hd]
          simp [List.takeWhile_append_dropWhile]
        · simp
      · simp at h

/-- The signed number parser returns a non-empty decomposition. -/
lemma parseNumber_decomp (l : List Char) (s : String) (out : List Char)
    (h : parseNumber l = some (s, out)) : l = s.data ++ out ∧ s.data ≠ [] := by
  unfold parseNumber at h
  split at h
  · simp at h
  · rename_i c tl
    split at h
    · rename_i hc
      subst hc
      cases hcore : parseNumberCore tl with
      | none => rw [hcore] at h; simp at h
      | some p =>
        obtain ⟨cs, r⟩ := p
        rw [hcore] at h
        simp only [Option.map_some', Option.some.injEq, Prod.mk.injEq] at h
        obtain ⟨h1, h2⟩ := h
        subst h2
        subst h1
        obtain ⟨hd, hne⟩ := parseNumberCore_decomp tl cs r hcore
        constructor
        · show '-' :: tl = ('-' :: cs) ++ r
          simp [hd]
        · show ('-' :: cs) ≠ []
          simp
    · cases hcore : parseNumberCore (c :: tl) with
      | none => rw [hcore] at h; simp at h
      | some p =>
        obtain ⟨cs, r⟩ := p
        rw [hcore] at h
        simp only [Option.map_some', Option.some.injEq, Prod.mk.injEq] at h
        obtain ⟨h1, h2⟩ := h
        subst h2
        subst h1
        exact parseNumberCore_decomp (c :: tl) cs r hcore

/-- The string-body parser consumed exactly the content and the closing
quote. -/
lemma parseStr_decomp (f : Nat) (l s r : List Char) (h : parseStr f l = some (s, r)) :
    l = s ++ '"' :: r := by
  induction f generalizing l s r with
  | zero => simp [parseStr] at h
  | succ f ih =>
    match l with
    | [] => simp [parseStr] at h
    | c :: tl =>
      simp only [parseStr] at h
      split at h
      · rename_i hc
        subst hc
        simp only [Option.some.injEq, Prod.mk.injEq] at h
        obtain ⟨h1, h2⟩ := h
        subst h1
        subst h2
        rfl
      · split at h
        · rename_i hbs
          subst hbs
          split at h
          · simp at h
          · rename_i e tl2
            split at h
            · split at h
              · rename_i s' r' hrec
                simp only [Option.some.injEq, Prod.mk.injEq] at h
                obtain ⟨h1, h2⟩ := h
                subst h2
                subst h1
                rw [ih tl2 s' r' hrec]
                rfl
              · simp at h
            · split at h
              · split at h
                · rename_i x1 x2 x3 x4 tl3
                  split at h
                  · split at h
                    · rename_i s' r' hrec
                      simp only [Option.some.injEq, Prod.mk.injEq] at h
                      obtain ⟨hh1, hh2⟩ := h
                      subst hh2
                      subst hh1
                      rw [ih tl3 s' r' hrec]
                      rfl
                    · simp at h
                  · simp at h
                · simp at h
              · simp at h
        · split at h
          · simp at h
          · split at h
            · rename_i s' r' hrec
              simp only [Option.some.injEq, Prod.mk.injEq] at h
              obtain ⟨h1, h2⟩ := h
              subst h2
              subst h1
              rw [ih tl s' r' hrec]
              rfl
            · simp at h

/-- Boolean emptiness test unfolded. -/
lemma isEmpty_true_iff (l : List Char) : l.isEmpty = true ↔ l = [] := by
  cases l <;> simp

/-- Unfolding: a lone exponent marker matches no exponent. -/
lemma parseExpPart_cons_nil (e : Char) (he : e = 'e' ∨ e = 'E') :
    parseExpPart [e] = ([], [e]) := by
  simp [parseExpPart, he]

/-- Unfolding of the exponent parser past the marker character. -/
lemma parseExpPart_cons2 (e s : Char) (tl2 : List Char) (he : e = 'e' ∨ e = 'E') :
    parseExpPart (e :: s :: tl2) =
      if s = '+' ∨ s = '-' then
        if (tl2.takeWhile Char.isDigit).isEmpty then ([], e :: s :: tl2)
        else (e :: s :: tl2.takeWhile Char.isDigit, tl2.dropWhile Char.isDigit)
      else
        if ((s :: tl2).takeWhile Char.isDigit).isEmpty then ([], e :: s :: tl2)
        else (e :: (s :: tl2).takeWhile Char.isDigit, (s :: tl2).dropWhile Char.isDigit) := by
  simp [parseExpPart, he]

/-- Unfolding: no exponent marker, no exponent. -/
lemma parseExpPart_not_e (e : Char) (tl : List Char) (he : ¬(e = 'e' ∨ e = 'E')) :
    parseExpPart (e :: tl) = ([], e :: tl) := by
  simp [parseExpPart, he]

/-- Cutting an untouched suffix out of an exponent parse. -/
lemma parseExpPart_cut (x b ex r' : List Char) (hb : b ≠ [])
    (h : parseExpPart (x ++ b) = (ex, r' ++ b)) :
    parseExpPart x = (ex, r') := by
  have hd := parseExpPart_decomp (x ++ b) ex (r' ++ b) h
  have hsplit : x = ex ++ r' := by
    have hx : (ex ++ r') ++ b = x ++ b := by rw [List.append_assoc, ← hd]
    exact (List.append_cancel_right hx).symm
  cases x with
  | nil =>
    obtain ⟨hex, hr⟩ := List.append_eq_nil.mp hsplit.symm
    subst hex
    subst hr
    rfl
  | cons e x' =>
    by_cases hcond : e = 'e' ∨ e = 'E'
    · cases x' with
      | nil =>
        rw [parseExpPart_cons_nil e hcond]
        cases b with
        | nil => exact absurd rfl hb
        | cons s tl2 =>
          simp only [List.cons_append, List.nil_append] at h
          rw [parseExpPart_cons2 e s tl2 hcond] at h
          split at h
          · split at h
            · injection h with h1 h2
              subst h1
              have hr : [e] = r' := by simpa using hsplit
              rw [← hr]
            · injection h with h1 h2
              subst h1
              have hlen := congrArg List.length hsplit
              simp at hlen
          · split at h
            · injection h with h1 h2
              subst h1
              have hr : [e] = r' := by simpa using hsplit
              rw [← hr]
            · rename_i hemp
              injection h with h1 h2
              subst h1
              have hlen := congrArg List.length hsplit
              simp only [List.length_cons, List.length_append, List.length_nil] at hlen
              have htw : ((s :: tl2).takeWhile Char.isDigit).length = 0 := by omega
              rw [List.length_eq_zero] at htw
              rw [htw] at hemp
              simp at hemp
      | cons s x'' =>
        simp only [List.cons_append] at h
        rw [parseExpPart_cons2 e s (x'' ++ b) hcond] at h
        rw [parseExpPart_cons2 e s x'' hcond]
        by_cases hs : s = '+' ∨ s = '-'
        · rw [if_pos hs] at h ⊢
          split at h
          · rename_i hemp
            injection h with h1 h2
            subst h1
            have hr : e :: s :: x'' = r' := by simpa using hsplit
            have hemp' : (x''.takeWhile Char.isDigit).isEmpty = true := by
              rw [isEmpty_true_iff] at hemp ⊢
              exact takeWhile_append_nil Char.isDigit x'' b hemp
            rw [if_pos hemp', ← hr]
          · rename_i hemp
            injection h with h1 h2
            obtain ⟨hdw, htw⟩ := dropWhile_append_cut Char.isDigit x'' b r' h2
            have hemp' : ¬(x''.takeWhile Char.isDigit).isEmpty = true := by
              rw [← htw]
              exact hemp
            rw [if_neg hemp', ← h1, htw, hdw]
        · rw [if_neg hs] at h ⊢
          split at h
          · rename_i hemp
            injection h with h1 h2
            subst h1
            have hr : e :: s :: x'' = r' := by simpa using hsplit
            have hemp' : ((s :: x'').takeWhile Char.isDigit).isEmpty = true := by
              rw [isEmpty_true_iff] at hemp ⊢
              exact takeWhile_append_nil Char.isDigit (s :: x'') b (by simpa using hemp)
            rw [if_pos hemp', ← hr]
          · rename_i hemp
            injection h with h1 h2
            have h2' : ((s :: x'') ++ b).dropWhile Char.isDigit = r' ++ b := by
              simpa using h2
            obtain ⟨hdw, htw⟩ := dropWhile_append_cut Char.isDigit (s :: x'') b r' h2'
            have htw' : (s :: (x'' ++ b)).takeWhile Char.isDigit =
                (s :: x'').takeWhile Char.isDigit := by
              simpa using htw
            have hemp' : ¬((s :: x'').takeWhile Char.isDigit).isEmpty = true := by
              rw [← htw']
              exact hemp
            rw [if_neg hemp', ← h1, htw', hdw]
    · simp only [List.cons_append] at h
      rw [parseExpPart_not_e e (x' ++ b) hcond] at h
      rw [parseExpPart_not_e e x' hcond]
      injection h with h1 h2
      subst h1
      have hr : e :: x' = r' := by simpa using hsplit
      rw [← hr]

/-- Unfolding of the fraction parser on a non-empty list. -/
lemma parseFracExp_cons (c : Char) (tl : List Char) :
    parseFracExp (c :: tl) =
      if c = '.' then
        if (tl.takeWhile Char.isDigit).isEmpty then parseExpPart (c :: tl)
        else
          ('.' :: (tl.takeWhile Char.isDigit ++ (parseExpPart (tl.dropWhile Char.isDigit)).1),
            (parseExpPart (tl.dropWhile Char.isDigit)).2)
      else parseExpPart (c :: tl) := rfl

/-- Cutting an untouched suffix out of a fraction-exponent parse. -/
lemma parseFracExp_cut (x b fe r' : List Char) (hb : b ≠ [])
    (h : parseFracExp (x ++ b) = (fe, r' ++ b)) :
    parseFracExp x = (fe, r') := by
  have hd := parseFracExp_decomp (x ++ b) fe (r' ++ b) h
  have hsplit : x = fe ++ r' := by
    have hx : (fe ++ r') ++ b = x ++ b := by rw [List.append_assoc, ← hd]
    exact (List.append_cancel_right hx).symm
  cases x with
  | nil =>
    obtain ⟨hfe, hr⟩ := List.append_eq_nil.mp hsplit.symm
    subst hfe
    subst hr
    rfl
  | cons c x' =>
    simp only [List.cons_append] at h
    rw [parseFracExp_cons c (x' ++ b)] at h
    rw [parseFracExp_cons c x']
    by_cases hc : c = '.'
    · rw [if_pos hc] at h ⊢
      split at h
      · rename_i hemp
        have hemp' : (x'.takeWhile Char.isDigit).isEmpty = true := by
          rw [isEmpty_true_iff] at hemp ⊢
          exact takeWhile_append_nil Char.isDigit x' b hemp
        rw [if_pos hemp']
        exact parseExpPart_cut (c :: x') b fe r' hb (by simpa using h)
      · rename_i hemp
        injection h with h1 h2
        by_cases hxe : x'.dropWhile Char.isDigit = []
        · have hall : ∀ a ∈ x', Char.isDigit a := List.dropWhile_eq_nil_iff.mp hxe
          have hdw : (x' ++ b).dropWhile Char.isDigit = b.dropWhile Char.isDigit :=
            List.dropWhile_append_of_pos hall
          rw [hdw] at h1 h2
          have hed := parseExpPart_decomp (b.dropWhile Char.isDigit)
            (parseExpPart (b.dropWhile Char.isDigit)).1
            (parseExpPart (b.dropWhile Char.isDigit)).2 rfl
          rw [h2] at hed
          have hlen := congrArg List.length hed
          have hble : (b.dropWhile Char.isDigit).length ≤ b.length :=
            (List.dropWhile_suffix Char.isDigit).length_le
          rw [List.length_append, List.length_append] at hlen
          have he1 : (parseExpPart (b.dropWhile Char.isDigit)).1 = [] := by
            rw [← List.length_eq_zero]
            omega
          have hr0 : r' = [] := by
            rw [← List.length_eq_zero]
            omega
          subst hr0
          have hdbb : b.dropWhile Char.isDigit = b := by
            rw [hed, he1]
            simp
          have htwb : b.takeWhile Char.isDigit = [] := by
            have hq := List.takeWhile_append_dropWhile Char.isDigit b
            rw [hdbb] at hq
            have hql := congrArg List.length hq
            rw [List.length_append] at hql
            rw [← List.length_eq_zero]
            omega
          have htw : (x' ++ b).takeWhile Char.isDigit = x' := by
            rw [List.takeWhile_append_of_pos hall, htwb, List.append_nil]
          rw [htw] at h1
          have hx'ne : x' ≠ [] := by
            intro hx0
            rw [isEmpty_true_iff, htw, hx0] at hemp
            exact hemp rfl
          have hemp' : ¬(x'.takeWhile Char.isDigit).isEmpty = true := by
            rw [isEmpty_true_iff, List.takeWhile_eq_self_iff.mpr hall]
            exact hx'ne
          rw [if_neg hemp']
          rw [hxe]
          rw [List.takeWhile_eq_self_iff.mpr hall]
          rw [← h1, he1]
          rfl
        · have hdw : (x' ++ b).dropWhile Char.isDigit = x'.dropWhile Char.isDigit ++ b := by
            rw [List.dropWhile_append]
            rw [if_neg]
            intro hie
            rw [List.isEmpty_iff] at hie
            exact hxe hie
          rw [hdw] at h1 h2
          have hpe : parseExpPart (x'.dropWhile Char.isDigit ++ b) =
              ((parseExpPart (x'.dropWhile Char.isDigit ++ b)).1, r' ++ b) := by
            rw [← h2]
          have hcut := parseExpPart_cut (x'.dropWhile Char.isDigit) b
            (parseExpPart (x'.dropWhile Char.isDigit ++ b)).1 r' hb hpe
          have htw : (x' ++ b).takeWhile Char.isDigit = x'.takeWhile Char.isDigit := by
            rw [List.takeWhile_append]
            rw [if_neg]
            intro hlenw
            apply hxe
            have hq := List.takeWhile_append_dropWhile Char.isDigit x'
            have hql := congrArg List.length hq
            rw [List.length_append] at hql
            rw [← List.length_eq_zero]
            omega
          rw [htw] at h1
          have hemp' : ¬(x'.takeWhile Char.isDigit).isEmpty = true := by
            rw [← htw]
            exact hemp
          rw [if_neg hemp']
          rw [hcut]
          rw [← h1]
    · rw [if_neg hc] at h ⊢
      exact parseExpPart_cut (c :: x') b fe r' hb (by simpa using h)

/-- Unfolding of the unsigned number parser on a non-empty list. -/
lemma parseNumberCore_cons (c : Char) (tl : List Char) :
    parseNumberCore (c :: tl) =
      if c = '0' then some ('0' :: (parseFracExp tl).1, (parseFracExp tl).2)
      else if c.isDigit then
        some (c :: (tl.takeWhile Char.isDigit ++ (parseFracExp (tl.dropWhile Char.isDigit)).1),
          (parseFracExp (tl.dropWhile Char.isDigit)).2)
      else none := rfl

/-- Cutting an untouched suffix out of an unsigned number parse. -/
lemma parseNumberCore_cut (x b cs r' : List Char) (hb : b ≠ [])
    (h : parseNumberCore (x ++ b) = some (cs, r' ++ b)) :
    parseNumberCore x = some (cs, r') := by
  obtain ⟨hd, hne⟩ := parseNumberCore_decomp (x ++ b) cs (r' ++ b) h
  have hsplit : x = cs ++ r' := by
    have hx : (cs ++ r') ++ b = x ++ b := by rw [List.append_assoc, ← hd]
    exact (List.append_cancel_right hx).symm
  cases x with
  | nil =>
    obtain ⟨hc0, hr0⟩ := List.append_eq_nil.mp hsplit.symm
    exact absurd hc0 hne
  | cons c x' =>
    simp only [List.cons_append] at h
    rw [parseNumberCore_cons c (x' ++ b)] at h
    rw [parseNumberCore_cons c x']
    by_cases hc : c = '0'
    · rw [if_pos hc] at h ⊢
      simp only [Option.some.injEq, Prod.mk.injEq] at h
      obtain ⟨h1, h2⟩ := h
      have hpf : parseFracExp (x' ++ b) = ((parseFracExp (x' ++ b)).1, r' ++ b) := by
        rw [← h2]
      have hcut := parseFracExp_cut x' b (parseFracExp (x' ++ b)).1 r' hb hpf
      rw [hcut, ← h1]
    · rw [if_neg hc] at h ⊢
      by_cases hd2 : c.isDigit
      · rw [if_pos hd2] at h ⊢
        simp only [Option.some.injEq, Prod.mk.injEq] at h
        obtain ⟨h1, h2⟩ := h
        by_cases hxe : x'.dropWhile Char.isDigit = []
        · have hall : ∀ a ∈ x', Char.isDigit a := List.dropWhile_eq_nil_iff.mp hxe
          have hdw : (x' ++ b).dropWhile Char.isDigit = b.dropWhile Char.isDigit :=
            List.dropWhile_append_of_pos hall
          rw [hdw] at h1 h2
          have hfd := parseFracExp_decomp (b.dropWhile Char.isDigit)
            (parseFracExp (b.dropWhile Char.isDigit)).1
            (parseFracExp (b.dropWhile Char.isDigit)).2 rfl
          rw [h2] at hfd
          have hlen := congrArg List.length hfd
          have hble : (b.dropWhile Char.isDigit).length ≤ b.length :=
            (List.dropWhile_suffix Char.isDigit).length_le
          rw [List.length_append, List.length_append] at hlen
          have he1 : (parseFracExp (b.dropWhile Char.isDigit)).1 = [] := by
            rw [← List.length_eq_zero]
            omega
          have hr0 : r' = [] := by
            rw [← List.length_eq_zero]
            omega
          subst hr0
          have hdbb : b.dropWhile Char.isDigit = b := by
            rw [hfd, he1]
            simp
          have htwb : b.takeWhile Char.isDigit = [] := by
            have hq := List.takeWhile_append_dropWhile Char.isDigit b
            rw [hdbb] at hq
            have hql := congrArg List.length hq
            rw [List.length_append] at hql
            rw [← List.length_eq_zero]
            omega
          have htw : (x' ++ b).takeWhile Char.isDigit = x' := by
            rw [List.takeWhile_append_of_pos hall, htwb, List.append_nil]
          rw [htw, he1] at h1
          rw [hxe]
          rw [List.takeWhile_eq_self_iff.mpr hall]
          rw [← h1]
          rfl
        · have hdw : (x' ++ b).dropWhile Char.isDigit = x'.dropWhile Char.isDigit ++ b := by
            rw [List.dropWhile_append]
            rw [if_neg]
            intro hie
            rw [List.isEmpty_iff] at hie
            exact hxe hie
          rw [hdw] at h1 h2
          have hpf : parseFracExp (x'.dropWhile Char.isDigit ++ b) =
              ((parseFracExp (x'.dropWhile Char.isDigit ++ b)).1, r' ++ b) := by
            rw [← h2]
          have hcut := parseFracExp_cut (x'.dropWhile Char.isDigit) b
            (parseFracExp (x'.dropWhile Char.isDigit ++ b)).1 r' hb hpf
          have htw : (x' ++ b).takeWhile Char.isDigit = x'.takeWhile Char.isDigit := by
            rw [List.takeWhile_append]
            rw [if_neg]
            intro hlenw
            apply hxe
            have hq := List.takeWhile_append_dropWhile Char.isDigit x'
            have hql := congrArg List.length hq
            rw [List.length_append] at hql
            rw [← List.length_eq_zero]
            omega
          rw [htw] at h1
          rw [hcut, ← h1]
      · rw [if_neg hd2] at h
        simp at h

/-- Unfolding of the signed number parser on a non-empty list. -/
lemma parseNumber_cons (c : Char) (tl : List Char) :
    parseNumber (c :: tl) =
      if c = '-' then (parseNumberCore tl).map (fun p => (String.mk ('-' :: p.1), p.2))
      else (parseNumberCore (c :: tl)).map (fun p => (String.mk p.1, p.2)) := rfl

/-- Cutting an untouched suffix out of a number parse. -/
lemma parseNumber_cut (x b : List Char) (s : String) (r' : List Char) (hb : b ≠ [])
    (h : parseNumber (x ++ b) = some (s, r' ++ b)) :
    parseNumber x = some (s, r') := by
  obtain ⟨hd, hne⟩ := parseNumber_decomp (x ++ b) s (r' ++ b) h
  cases x with
  | nil =>
    exfalso
    apply hne
    have hx : (s.data ++ r') ++ b = [] ++ b := by rw [List.append_assoc, ← hd]
    have := (List.append_cancel_right hx).symm
    exact (List.append_eq_nil.mp this.symm).1
  | cons c x' =>
    simp only [List.cons_append] at h
    rw [parseNumber_cons c (x' ++ b)] at h
    rw [parseNumber_cons c x']
    by_cases hm : c = '-'
    · rw [if_pos hm] at h ⊢
      cases hcore : parseNumberCore (x' ++ b) with
      | none => rw [hcore] at h; simp at h
      | some p =>
        obtain ⟨cs, rr⟩ := p
        rw [hcore] at h
        simp only [Option.map_some', Option.some.injEq, Prod.mk.injEq] at h
        obtain ⟨h1, h2⟩ := h
        rw [h2] at hcore
        have hcut := parseNumberCore_cut x' b cs r' hb hcore
        rw [hcut]
        simp only [Option.map_some']
        rw [h1]
    · rw [if_neg hm] at h ⊢
      cases hcore : parseNumberCore ((c :: x') ++ b) with
      | none =>
        rw [List.cons_append] at hcore
        rw [hcore] at h
        simp at h
      | some p =>
        obtain ⟨cs, rr⟩ := p
        have hcore' := hcore
        rw [List.cons_append] at hcore'
        rw [hcore'] at h
        simp only [Option.map_some', Option.some.injEq, Prod.mk.injEq] at h
        obtain ⟨h1, h2⟩ := h
        rw [h2] at hcore
        have hcut := parseNumberCore_cut (c :: x') b cs r' hb hcore
        rw [hcut]
        simp only [Option.map_some']
        rw [h1]

/-- A matched literal is a prefix, and the value is the fixed one. -/
lemma matchLit_decomp (pat : List Char) (j v : Json) (l r : List Char)
    (h : matchLit pat j l = some (v, r)) : l = pat ++ r ∧ v = j := by
  unfold matchLit at h
  split at h
  · rename_i hpre
    simp only [Option.some.injEq, Prod.mk.injEq] at h
    obtain ⟨h1, h2⟩ := h
    obtain ⟨t, ht⟩ := List.isPrefixOf_iff_prefix.mp hpre
    have hdrop : l.drop pat.length = t := by
      rw [← ht, List.drop_left]
    constructor
    · rw [← ht, ← hdrop, h2]
    · exact h1.symm
  · simp at h

/-- Cutting an untouched suffix out of a literal match. -/
lemma matchLit_cut (pat : List Char) (j v : Json) (a b r' : List Char)
    (h : matchLit pat j (a ++ b) = some (v, r' ++ b)) :
    matchLit pat j a = some (v, r') := by
  obtain ⟨hd, hv⟩ := matchLit_decomp pat j v (a ++ b) (r' ++ b) h
  subst hv
  have ha : a = pat ++ r' := by
    have hx : (pat ++ r') ++ b = a ++ b := by rw [List.append_assoc, ← hd]
    exact (List.append_cancel_right hx).symm
  unfold matchLit
  have hpre : pat.isPrefixOf a = true :=
    List.isPrefixOf_iff_prefix.mpr ⟨r', ha.symm⟩
  rw [if_pos hpre, ha, List.drop_left]

/-- Cutting an untouched suffix out of a string-body parse. -/
lemma parseStr_cut (f : Nat) (x b s r' : List Char)
    (h : parseStr f (x ++ b) = some (s, r' ++ b)) :
    parseStr f x = some (s, r') := by
  induction f generalizing x s r' with
  | zero => simp [parseStr] at h
  | succ f ih =>
    have hd := parseStr_decomp (f + 1) (x ++ b) s (r' ++ b) h
    have hx : x = s ++ '"' :: r' := by
      have hq : (s ++ '"' :: r') ++ b = x ++ b := by
        rw [hd]
        simp
      exact (List.append_cancel_right hq).symm
    cases x with
    | nil =>
      exfalso
      have hlen := congrArg List.length hx
      simp only [List.length_cons, List.length_append, List.length_nil] at hlen
      omega
    | cons c x' =>
      simp only [List.cons_append, parseStr] at h
      simp only [parseStr]
      split at h
      · rename_i hc
        rw [if_pos hc]
        simp only [Option.some.injEq, Prod.mk.injEq] at h
        obtain ⟨h1, h2⟩ := h
        subst h1
        have hr : x' = r' := List.append_cancel_right h2
        rw [hr]
      · rename_i hc
        rw [if_neg hc]
        split at h
        · rename_i hbs
          rw [if_pos hbs]
          subst hbs
          cases x' with
          | nil =>
            exfalso
            have hlen := congrArg List.length hx
            simp only [List.length_cons, List.length_append, List.length_nil] at hlen
            have hs0 : s.length = 0 ∧ r'.length = 0 := by omega
            rw [List.length_eq_zero] at hs0
            obtain ⟨hs0, hr0⟩ := hs0
            rw [List.length_eq_zero] at hr0
            subst hs0
            subst hr0
            simp only [List.nil_append] at hx
            injection hx with h1 h2
            exact hc h1
          | cons e x'' =>
            simp only [List.cons_append, List.append_eq, List.nil_append] at h ⊢
            split at h
            · rename_i hesc
              rw [if_pos hesc]
              split at h
              · rename_i s' rr hrec
                simp only [Option.some.injEq, Prod.mk.injEq] at h
                obtain ⟨h1, h2⟩ := h
                subst h2
                subst h1
                rw [ih x'' s' r' hrec]
              · simp at h
            · rename_i hesc
              rw [if_neg hesc]
              split at h
              · rename_i hu
                rw [if_pos hu]
                match x'' with
                | y1 :: y2 :: y3 :: y4 :: x3 =>
                  simp only [List.cons_append] at h ⊢
                  split at h
                  · rename_i hhex
                    rw [if_pos hhex]
                    split at h
                    · rename_i s' rr hrec
                      simp only [Option.some.injEq, Prod.mk.injEq] at h
                      obtain ⟨h1, h2⟩ := h
                      subst h2
                      subst h1
                      rw [ih x3 s' r' hrec]
                    · simp at h
                  · simp at h
                | [] =>
                  exfalso
                  split at h
                  · split at h
                    · split at h
                      · rename_i s' rr hrec
                        simp only [Option.some.injEq, Prod.mk.injEq] at h
                        obtain ⟨h1, h2⟩ := h
                        subst h1
                        have hlen := congrArg List.length hx
                        simp only [List.length_cons, List.length_append,
                          List.length_nil] at hlen
                        omega
                      · simp at h
                    · simp at h
                  · simp at h
                | [y1] =>
                  exfalso
                  split at h
                  · split at h
                    · split at h
                      · rename_i s' rr hrec
                        simp only [Option.some.injEq, Prod.mk.injEq] at h
                        obtain ⟨h1, h2⟩ := h
                        subst h1
                        have hlen := congrArg List.length hx
                        simp only [List.length_cons, List.length_append,
                          List.length_nil] at hlen
                        omega
                      · simp at h
                    · simp at h
                  · simp at h
                | [y1, y2] =>
                  exfalso
                  split at h
                  · split at h
                    · split at h
                      · rename_i s' rr hrec
                        simp only [Option.some.injEq, Prod.mk.injEq] at h
                        obtain ⟨h1, h2⟩ := h
                        subst h1
                        have hlen := congrArg List.length hx
                        simp only [List.length_cons, List.length_append,
                          List.length_nil] at hlen
                        omega
                      · simp at h
                    · simp at h
                  · simp at h
                | [y1, y2, y3] =>
                  exfalso
                  split at h
                  · split at h
                    · split at h
                      · rename_i s' rr hrec
                        simp only [Option.some.injEq, Prod.mk.injEq] at h
                        obtain ⟨h1, h2⟩ := h
                        subst h1
                        have hlen := congrArg List.length hx
                        simp only [List.length_cons, List.length_append,
                          List.length_nil] at hlen
                        omega
                      · simp at h
                    · simp at h
                  · simp at h
              · simp at h
        · rename_i hbs
          rw [if_neg hbs]
          split at h
          · simp at h
          · rename_i hctl
            rw [if_neg hctl]
            split at h
            · rename_i s' rr hrec
              simp only [Option.some.injEq, Prod.mk.injEq] at h
              obtain ⟨h1, h2⟩ := h
              subst h2
              subst h1
              rw [ih x' s' r' hrec]
            · simp at h

/-- A whitespace skip splits off an all-whitespace prefix. -/
lemma skipWs_decomp (l : List Char) :
    ∃ w, l = w ++ skipWs l ∧ ∀ c ∈ w, isJsonWs c :=
  ⟨l.takeWhile isJsonWs, (List.takeWhile_append_dropWhile isJsonWs l).symm,
    fun _ hc => List.mem_takeWhile_imp hc⟩

/-- Every successful step of the parser consumes at least one character and
returns a suffix of its input. -/
lemma parseStep_suffix (f : Nat) (m : PMode) (l : List Char) (v : Json) (r : List Char)
    (h : parseStep f m l = some (v, r)) : ∃ pre, l = pre ++ r ∧ pre ≠ [] := by
  induction f generalizing m l v r with
  | zero => simp [parseStep] at h
  | succ f ih =>
    cases m with
    | value =>
      cases l with
      | nil => simp [parseStep] at h
      | cons c tl =>
        simp only [parseStep] at h
        split at h
        · split at h
          · rename_i s0 r0 hstr
            simp only [Option.some.injEq, Prod.mk.injEq] at h
            obtain ⟨h1, h2⟩ := h
            subst h2
            have hdec := parseStr_decomp f tl s0 r0 hstr
            exact ⟨c :: (s0 ++ ['"']), by simp [hdec], by simp⟩
          · simp at h
        · split at h
          · obtain ⟨pre, hpre, hne⟩ := ih .elems0 tl v r h
            exact ⟨c :: pre, by simp [hpre], by simp⟩
          · split at h
            · split at h
              · rename_i ms r0 hm
                simp only [Option.some.injEq, Prod.mk.injEq] at h
                obtain ⟨h1, h2⟩ := h
                subst h2
                obtain ⟨pre, hpre, hne⟩ := ih .members0 tl (.obj ms) r0 hm
                exact ⟨c :: pre, by simp [hpre], by simp⟩
              · simp at h
            · split at h
              · obtain ⟨hd, hv⟩ := matchLit_decomp _ _ v (c :: tl) r h
                exact ⟨['t', 'r', 'u', 'e'], hd, by simp⟩
              · split at h
                · obtain ⟨hd, hv⟩ := matchLit_decomp _ _ v (c :: tl) r h
                  exact ⟨['f', 'a', 'l', 's', 'e'], hd, by simp⟩
                · split at h
                  · obtain ⟨hd, hv⟩ := matchLit_decomp _ _ v (c :: tl) r h
                    exact ⟨['n', 'u', 'l', 'l'], hd, by simp⟩
                  · split at h
                    · obtain ⟨hd, hv⟩ := matchLit_decomp _ _ v (c :: tl) r h
                      exact ⟨['N', 'a', 'N'], hd, by simp⟩
                    · split at h
                      · obtain ⟨hd, hv⟩ := matchLit_decomp _ _ v (c :: tl) r h
                        exact ⟨"Infinity".toList, hd, by simp⟩
                      · split at h
                        · obtain ⟨hd, hv⟩ := matchLit_decomp _ _ v (c :: tl) r h
                          exact ⟨"-Infinity".toList, hd, by simp⟩
                        · split at h
                          · rename_i s0 r0 hnum
                            simp only [Option.some.injEq, Prod.mk.injEq] at h
                            obtain ⟨h1, h2⟩ := h
                            subst h2
                            obtain ⟨hd, hne⟩ := parseNumber_decomp (c :: tl) s0 r0 hnum
                            exact ⟨s0.data, hd, hne⟩
                          · simp at h
    | elems0 =>
      simp only [parseStep] at h
      split at h
      · rename_i r2 hsk
        simp only [Option.some.injEq, Prod.mk.injEq] at h
        obtain ⟨h1, h2⟩ := h
        subst h2
        obtain ⟨w, hdec, _⟩ := skipWs_decomp l
        rw [hsk] at hdec
        exact ⟨w ++ [']'], by simp [hdec], by simp⟩
      · obtain ⟨pre, hpre, hne⟩ := ih .elems1 (skipWs l) v r h
        obtain ⟨w, hdec, _⟩ := skipWs_decomp l
        refine ⟨w ++ pre, ?_, by simp [hne]⟩
        rw [List.append_assoc, ← hpre]
        exact hdec
    | elems1 =>
      simp only [parseStep] at h
      split at h
      · simp at h
      · rename_i v0 r0 hval
        obtain ⟨pre0, hpre0, hne0⟩ := ih .value l v0 r0 hval
        split at h
        · rename_i r2 hsk
          simp only [Option.some.injEq, Prod.mk.injEq] at h
          obtain ⟨h1, h2⟩ := h
          subst h2
          obtain ⟨w, hdec, _⟩ := skipWs_decomp r0
          rw [hsk] at hdec
          refine ⟨pre0 ++ (w ++ [']']), ?_, by simp [hne0]⟩
          rw [hpre0, hdec]
          try simp
        · rename_i r2 hsk
          split at h
          · rename_i vs r3 hrec
            simp only [Option.some.injEq, Prod.mk.injEq] at h
            obtain ⟨h1, h2⟩ := h
            subst h2
            obtain ⟨pre2, hpre2, hne2⟩ := ih .elems1 (skipWs r2) (.arr vs) r3 hrec
            obtain ⟨w0, hdec0, _⟩ := skipWs_decomp r0
            obtain ⟨w2, hdec2, _⟩ := skipWs_decomp r2
            rw [hsk] at hdec0
            refine ⟨pre0 ++ (w0 ++ (',' :: (w2 ++ pre2))), ?_, by simp [hne0]⟩
            rw [hpre0, hdec0]
            simp only [List.append_assoc, List.cons_append]
            rw [hdec2, hpre2]
            try simp
          · simp at h
        · simp at h
    | members0 =>
      simp only [parseStep] at h
      split at h
      · rename_i r2 hsk
        simp only [Option.some.injEq, Prod.mk.injEq] at h
        obtain ⟨h1, h2⟩ := h
        subst h2
        obtain ⟨w, hdec, _⟩ := skipWs_decomp l
        rw [hsk] at hdec
        exact ⟨w ++ ['\x7d'], by simp [hdec], by simp⟩
      · obtain ⟨pre, hpre, hne⟩ := ih .members1 (skipWs l) v r h
        obtain ⟨w, hdec, _⟩ := skipWs_decomp l
        refine ⟨w ++ pre, ?_, by simp [hne]⟩
        rw [List.append_assoc, ← hpre]
        exact hdec
    | members1 =>
      simp only [parseStep] at h
      split at h
      · rename_i tl
        split at h
        · simp at h
        · rename_i k r0 hstr
          split at h
          · rename_i r2 hsk
            split at h
            · simp at h
            · rename_i v0 r3 hval
              split at h
              · rename_i r4 hsk3
                simp only [Option.some.injEq, Prod.mk.injEq] at h
                obtain ⟨h1, h2⟩ := h
                subst h2
                have hdecs := parseStr_decomp f tl k r0 hstr
                obtain ⟨pre3, hpre3, hne3⟩ := ih .value (skipWs r2) v0 r3 hval
                obtain ⟨w0, hdec0, _⟩ := skipWs_decomp r0
                obtain ⟨w2, hdec2, _⟩ := skipWs_decomp r2
                obtain ⟨w3, hdec3, _⟩ := skipWs_decomp r3
                rw [hsk] at hdec0
                rw [hsk3] at hdec3
                refine ⟨'"' :: (k ++ '"' :: (w0 ++
                  (':' :: (w2 ++ (pre3 ++ (w3 ++ ['\x7d'])))))), ?_, by simp⟩
                rw [hdecs, hdec0]
                simp only [List.append_assoc, List.cons_append]
                rw [hdec2, hpre3, hdec3]
                try simp
              · rename_i r4 hsk3
                split at h
                · rename_i ms r5 hrec
                  simp only [Option.some.injEq, Prod.mk.injEq] at h
                  obtain ⟨h1, h2⟩ := h
                  subst h2
                  have hdecs := parseStr_decomp f tl k r0 hstr
                  obtain ⟨pre3, hpre3, hne3⟩ := ih .value (skipWs r2) v0 r3 hval
                  obtain ⟨pre5, hpre5, hne5⟩ := ih .members1 (skipWs r4) (.obj ms) r5 hrec
                  obtain ⟨w0, hdec0, _⟩ := skipWs_decomp r0
                  obtain ⟨w2, hdec2, _⟩ := skipWs_decomp r2
                  obtain ⟨w3, hdec3, _⟩ := skipWs_decomp r3
                  obtain ⟨w4, hdec4, _⟩ := skipWs_decomp r4
                  rw [hsk] at hdec0
                  rw [hsk3] at hdec3
                  refine ⟨'"' :: (k ++ '"' :: (w0 ++
                    (':' :: (w2 ++ (pre3 ++ (w3 ++ (',' :: (w4 ++ pre5)))))))), ?_, by simp⟩
                  rw [hdecs, hdec0]
                  simp only [List.append_assoc, List.cons_append]
                  rw [hdec2, hpre3, hdec3]
                  try simp only [List.append_assoc, List.cons_append]
                  rw [hdec4, hpre5]
                  try simp
                · simp at h
              · simp at h
          · simp at h
      · simp at h

/-- Whitespace-only prefixes vanish under `skipWs`. -/
lemma skipWs_append_ws (a b : List Char) (hae : skipWs a = []) :
    skipWs (a ++ b) = skipWs b := by
  simp only [skipWs] at hae ⊢
  rw [List.dropWhile_append, hae]
  simp

/-- `skipWs` over an append whose left part is not consumed entirely. -/
lemma skipWs_append_cons (a b : List Char) (c : Char) (r : List Char)
    (hsa : skipWs a = c :: r) :
    skipWs (a ++ b) = c :: (r ++ b) := by
  simp only [skipWs] at hsa ⊢
  rw [List.dropWhile_append, hsa]
  simp

/-- `skipWs` drops an all-whitespace prefix and stops at a non-whitespace head. -/
lemma skipWs_append_head_not (w : List Char) (c : Char) (r : List Char)
    (hw : ∀ x ∈ w, isJsonWs x) (hc : isJsonWs c = false) :
    skipWs (w ++ c :: r) = c :: r := by
  simp only [skipWs]
  rw [List.dropWhile_append]
  have hnil : w.dropWhile isJsonWs = [] := List.dropWhile_eq_nil_iff.mpr hw
  rw [hnil]
  simp [List.dropWhile_cons, hc]

/-- The head of `skipWs l` is never whitespace. -/
lemma skipWs_head_not (l : List Char) (c : Char) (h : (skipWs l).head? = some c) :
    isJsonWs c = false := by
  induction l with
  | nil => simp [skipWs] at h
  | cons a tl ih =>
    simp only [skipWs, List.dropWhile_cons] at h
    split at h
    · exact ih h
    · rename_i hws
      simp only [List.head?_cons, Option.some.injEq] at h
      subst h
      exact Bool.eq_false_iff.mpr hws

/-- Evaluation of the `elems0` mode at a closing bracket. -/
lemma parseStep_elems0_close (f : Nat) (l r : List Char) (hs : skipWs l = ']' :: r) :
    parseStep (f+1) .elems0 l = some (.arr [], r) := by
  simp only [parseStep, hs]

/-- Evaluation of the `elems0` mode when the next character is not `]`. -/
lemma parseStep_elems0_go (f : Nat) (l : List Char) (c : Char) (r : List Char)
    (hs : skipWs l = c :: r) (hc : c ≠ ']') :
    parseStep (f+1) .elems0 l = parseStep f .elems1 (c :: r) := by
  simp only [parseStep, hs]
  split
  · rename_i r2 heq
    injection heq with h1 h2
    exact absurd h1 hc
  · rfl

/-- Evaluation of the `members0` mode at a closing brace. -/
lemma parseStep_members0_close (f : Nat) (l r : List Char) (hs : skipWs l = '\x7d' :: r) :
    parseStep (f+1) .members0 l = some (.obj [], r) := by
  simp only [parseStep, hs]

/-- Evaluation of the `members0` mode when the next character is not a brace. -/
lemma parseStep_members0_go (f : Nat) (l : List Char) (c : Char) (r : List Char)
    (hs : skipWs l = c :: r) (hc : c ≠ '\x7d') :
    parseStep (f+1) .members0 l = parseStep f .members1 (c :: r) := by
  simp only [parseStep, hs]
  split
  · rename_i r2 heq
    injection heq with h1 h2
    exact absurd h1 hc
  · rfl

/-- Evaluation of the `elems1` mode at the last element of an array. -/
lemma parseStep_elems1_close (f : Nat) (l : List Char) (v0 : Json) (r0 r2 : List Char)
    (hv : parseStep f .value l = some (v0, r0)) (hs : skipWs r0 = ']' :: r2) :
    parseStep (f+1) .elems1 l = some (.arr [v0], r2) := by
  simp only [parseStep, hv, hs]

/-- Evaluation of the `elems1` mode at a comma after an element. -/
lemma parseStep_elems1_comma (f : Nat) (l : List Char) (v0 : Json) (r0 r2 : List Char)
    (hv : parseStep f .value l = some (v0, r0)) (hs : skipWs r0 = ',' :: r2) :
    parseStep (f+1) .elems1 l =
      match parseStep f .elems1 (skipWs r2) with
      | some (.arr vs, r3) => some (.arr (v0 :: vs), r3)
      | _ => none := by
  simp only [parseStep, hv, hs]

/-- Evaluation of the `members1` mode at the last member of an object. -/
lemma parseStep_members1_close (f : Nat) (tl k r r2 : List Char) (v : Json)
    (r3 r4 : List Char)
    (hk : parseStr f tl = some (k, r)) (hc : skipWs r = ':' :: r2)
    (hv : parseStep f .value (skipWs r2) = some (v, r3))
    (hs : skipWs r3 = '\x7d' :: r4) :
    parseStep (f+1) .members1 ('"' :: tl) = some (.obj [(String.mk k, v)], r4) := by
  simp only [parseStep, hk, hc, hv, hs]

/-- Evaluation of the `members1` mode at a comma after a member. -/
lemma parseStep_members1_comma (f : Nat) (tl k r r2 : List Char) (v : Json)
    (r3 r4 : List Char)
    (hk : parseStr f tl = some (k, r)) (hc : skipWs r = ':' :: r2)
    (hv : parseStep f .value (skipWs r2) = some (v, r3))
    (hs : skipWs r3 = ',' :: r4) :
    parseStep (f+1) .members1 ('"' :: tl) =
      match parseStep f .members1 (skipWs r4) with
      | some (.obj ms, r5) => some (.obj ((String.mk k, v) :: ms), r5)
      | _ => none := by
  simp only [parseStep, hk, hc, hv, hs]

/-- Cutting an untouched suffix out of a parser step: if parsing `a ++ b`
succeeds leaving remainder `r' ++ b`, the parse never looked at `b`. -/
lemma parseStep_cut (f : Nat) (m : PMode) (a b : List Char) (v : Json)
    (r' : List Char) (hb : b ≠ [])
    (h : parseStep f m (a ++ b) = some (v, r' ++ b)) :
    parseStep f m a = some (v, r') := by
  induction f generalizing m a v r' with
  | zero => simp [parseStep] at h
  | succ f ih =>
    cases m with
    | value =>
      cases a with
      | nil =>
        simp only [List.nil_append] at h
        obtain ⟨pre, hpre, hne⟩ := parseStep_suffix (f+1) .value b v (r' ++ b) h
        have h1 := congrArg List.length hpre
        simp only [List.length_append] at h1
        exact absurd (List.length_eq_zero.mp (by omega)) hne
      | cons c a' =>
        simp only [List.cons_append] at h
        simp only [parseStep] at h ⊢
        by_cases h1 : c = '"'
        · rw [if_pos h1] at h ⊢
          split at h
          · rename_i s0 r0 hstr
            simp only [Option.some.injEq, Prod.mk.injEq] at h
            obtain ⟨hv1, hr1⟩ := h
            subst hr1
            rw [parseStr_cut f a' b s0 r' hstr, ← hv1]
          · exact absurd h (by simp)
        · rw [if_neg h1] at h ⊢
          by_cases h2 : c = '['
          · rw [if_pos h2] at h ⊢
            exact ih .elems0 a' v r' h
          · rw [if_neg h2] at h ⊢
            by_cases h3 : c = '\x7b'
            · rw [if_pos h3] at h ⊢
              split at h
              · rename_i ms r0 hm
                simp only [Option.some.injEq, Prod.mk.injEq] at h
                obtain ⟨hv1, hr1⟩ := h
                subst hr1
                rw [ih .members0 a' (.obj ms) r' hm, ← hv1]
              · exact absurd h (by simp)
            · rw [if_neg h3] at h ⊢
              by_cases h4 : c = 't'
              · rw [if_pos h4] at h ⊢
                exact matchLit_cut _ _ v (c :: a') b r' (by simpa using h)
              · rw [if_neg h4] at h ⊢
                by_cases h5 : c = 'f'
                · rw [if_pos h5] at h ⊢
                  exact matchLit_cut _ _ v (c :: a') b r' (by simpa using h)
                · rw [if_neg h5] at h ⊢
                  by_cases h6 : c = 'n'
                  · rw [if_pos h6] at h ⊢
                    exact matchLit_cut _ _ v (c :: a') b r' (by simpa using h)
                  · rw [if_neg h6] at h ⊢
                    by_cases h7 : c = 'N'
                    · rw [if_pos h7] at h ⊢
                      exact matchLit_cut _ _ v (c :: a') b r' (by simpa using h)
                    · rw [if_neg h7] at h ⊢
                      by_cases h8 : c = 'I'
                      · rw [if_pos h8] at h ⊢
                        exact matchLit_cut _ _ v (c :: a') b r' (by simpa using h)
                      · rw [if_neg h8] at h ⊢
                        cases a' with
                        | nil =>
                          simp only [List.nil_append] at h
                          have hcond : (decide (c = '-')
                              && (([] : List Char).head? == some 'I')) = false :=
                            Bool.and_false _
                          rw [if_neg (by simp [hcond])]
                          split at h
                          · obtain ⟨hd, hv1⟩ :=
                              matchLit_decomp _ _ v (c :: b) (r' ++ b) h
                            have hlen := congrArg List.length hd
                            have h9L : ("-Infinity".toList).length = 9 := rfl
                            simp only [List.length_cons, List.length_append,
                              h9L] at hlen
                            omega
                          · split at h
                            · rename_i s0 r0 hnum
                              simp only [Option.some.injEq, Prod.mk.injEq] at h
                              obtain ⟨hv1, hr1⟩ := h
                              subst hr1
                              rw [parseNumber_cut [c] b s0 r' hb
                                (by simpa using hnum), ← hv1]
                            · exact absurd h (by simp)
                        | cons c2 a'' =>
                          simp only [List.cons_append, List.head?_cons] at h ⊢
                          split at h
                          · rename_i h9
                            rw [if_pos h9]
                            exact matchLit_cut _ _ v (c :: c2 :: a'') b r'
                              (by simpa using h)
                          · rename_i h9
                            rw [if_neg h9]
                            split at h
                            · rename_i s0 r0 hnum
                              simp only [Option.some.injEq, Prod.mk.injEq] at h
                              obtain ⟨hv1, hr1⟩ := h
                              subst hr1
                              rw [parseNumber_cut (c :: c2 :: a'') b s0 r' hb
                                (by simpa using hnum), ← hv1]
                            · exact absurd h (by simp)
    | elems0 =>
      simp only [parseStep] at h
      cases hsa : skipWs a with
      | nil =>
        rw [skipWs_append_ws a b hsa] at h
        split at h
        · rename_i r2 heq
          simp only [Option.some.injEq, Prod.mk.injEq] at h
          obtain ⟨hv1, hr1⟩ := h
          subst hr1
          have h1 := congrArg List.length heq
          have h2 : (skipWs b).length ≤ b.length :=
            (List.dropWhile_suffix isJsonWs).length_le
          simp only [List.length_cons, List.length_append] at h1
          omega
        · obtain ⟨pre, hpre, hne⟩ :=
            parseStep_suffix f .elems1 (skipWs b) v (r' ++ b) h
          have h1 := congrArg List.length hpre
          have h2 : (skipWs b).length ≤ b.length :=
            (List.dropWhile_suffix isJsonWs).length_le
          simp only [List.length_append] at h1
          exact absurd (List.length_eq_zero.mp (by omega)) hne
      | cons c rest =>
        rw [skipWs_append_cons a b c rest hsa] at h
        by_cases hc : c = ']'
        · subst hc
          have h' : some (Json.arr [], rest ++ b) = some (v, r' ++ b) := h
          simp only [Option.some.injEq, Prod.mk.injEq] at h'
          obtain ⟨hv1, hr1⟩ := h'
          have hrr : rest = r' := List.append_cancel_right hr1
          rw [parseStep_elems0_close f a rest hsa, hrr, ← hv1]
        · split at h
          · rename_i r2 heq
            injection heq with he1 he2
            exact absurd he1 hc
          · rw [parseStep_elems0_go f a c rest hsa hc]
            exact ih .elems1 (c :: rest) v r' (by simpa using h)
    | members0 =>
      simp only [parseStep] at h
      cases hsa : skipWs a with
      | nil =>
        rw [skipWs_append_ws a b hsa] at h
        split at h
        · rename_i r2 heq
          simp only [Option.some.injEq, Prod.mk.injEq] at h
          obtain ⟨hv1, hr1⟩ := h
          subst hr1
          have h1 := congrArg List.length heq
          have h2 : (skipWs b).length ≤ b.length :=
            (List.dropWhile_suffix isJsonWs).length_le
          simp only [List.length_cons, List.length_append] at h1
          omega
        · obtain ⟨pre, hpre, hne⟩ :=
            parseStep_suffix f .members1 (skipWs b) v (r' ++ b) h
          have h1 := congrArg List.length hpre
          have h2 : (skipWs b).length ≤ b.length :=
            (List.dropWhile_suffix isJsonWs).length_le
          simp only [List.length_append] at h1
          exact absurd (List.length_eq_zero.mp (by omega)) hne
      | cons c rest =>
        rw [skipWs_append_cons a b c rest hsa] at h
        by_cases hc : c = '\x7d'
        · subst hc
          have h' : some (Json.obj [], rest ++ b) = some (v, r' ++ b) := h
          simp only [Option.some.injEq, Prod.mk.injEq] at h'
          obtain ⟨hv1, hr1⟩ := h'
          have hrr : rest = r' := List.append_cancel_right hr1
          rw [parseStep_members0_close f a rest hsa, hrr, ← hv1]
        · split at h
          · rename_i r2 heq
            injection heq with he1 he2
            exact absurd he1 hc
          · rw [parseStep_members0_go f a c rest hsa hc]
            exact ih .members1 (c :: rest) v r' (by simpa using h)
    | elems1 =>
      simp only [parseStep] at h
      split at h
      · exact absurd h (by simp)
      · rename_i v0 r0 hval
        split at h
        · rename_i r2 heq2
          simp only [Option.some.injEq, Prod.mk.injEq] at h
          obtain ⟨hv1, hr1⟩ := h
          subst hr1
          obtain ⟨w, hw, hws⟩ := skipWs_decomp r0
          rw [heq2] at hw
          rw [hw] at hval
          have hval' : parseStep f .value (a ++ b)
              = some (v0, (w ++ ']' :: r') ++ b) := by
            rw [hval]; simp
          have hsv := ih .value a v0 (w ++ ']' :: r') hval'
          rw [parseStep_elems1_close f a v0 (w ++ ']' :: r') r' hsv
            (skipWs_append_head_not w ']' r' hws (by decide)), ← hv1]
        · rename_i r2 heq2
          split at h
          · rename_i vs r3 hrec
            simp only [Option.some.injEq, Prod.mk.injEq] at h
            obtain ⟨hv1, hr1⟩ := h
            subst hr1
            obtain ⟨pre3, hpre3, hne3⟩ :=
              parseStep_suffix f .elems1 (skipWs r2) (.arr vs) (r' ++ b) hrec
            rw [hpre3] at hrec
            have hsmall3 := ih .elems1 (pre3 ++ r') (Json.arr vs) r'
              (by simpa using hrec)
            obtain ⟨p0, ptl, hp⟩ := List.exists_cons_of_ne_nil hne3
            have hp0 : isJsonWs p0 = false := by
              apply skipWs_head_not r2
              rw [hpre3, hp]; rfl
            obtain ⟨w0, hw0, hws0⟩ := skipWs_decomp r0
            obtain ⟨w2, hw2, hws2⟩ := skipWs_decomp r2
            rw [heq2] at hw0
            rw [hpre3] at hw2
            rw [hw2] at hw0
            rw [hw0] at hval
            have hval' : parseStep f .value (a ++ b)
                = some (v0, (w0 ++ ',' :: (w2 ++ (pre3 ++ r'))) ++ b) := by
              rw [hval]; simp
            have hsv := ih .value a v0 (w0 ++ ',' :: (w2 ++ (pre3 ++ r'))) hval'
            have hskX : skipWs (w0 ++ ',' :: (w2 ++ (pre3 ++ r')))
                = ',' :: (w2 ++ (pre3 ++ r')) :=
              skipWs_append_head_not w0 ',' _ hws0 (by decide)
            have hskZ : skipWs (w2 ++ (pre3 ++ r')) = pre3 ++ r' := by
              rw [hp]; simp only [List.cons_append]
              exact skipWs_append_head_not w2 p0 (ptl ++ r') hws2 hp0
            rw [parseStep_elems1_comma f a v0 _ (w2 ++ (pre3 ++ r')) hsv hskX]
            rw [hskZ, hsmall3, ← hv1]
          · exact absurd h (by simp)
        · exact absurd h (by simp)
    | members1 =>
      cases a with
      | nil =>
        simp only [List.nil_append] at h
        obtain ⟨pre, hpre, hne⟩ := parseStep_suffix (f+1) .members1 b v (r' ++ b) h
        have h1 := congrArg List.length hpre
        simp only [List.length_append] at h1
        exact absurd (List.length_eq_zero.mp (by omega)) hne
      | cons c a' =>
        simp only [List.cons_append] at h
        simp only [parseStep] at h
        split at h
        · rename_i tl0 heqh
          injection heqh with hc htl
          subst hc
          subst htl
          split at h
          · exact absurd h (by simp)
          · rename_i k0 r0 hkey
            split at h
            · rename_i r2 heqc
              split at h
              · exact absurd h (by simp)
              · rename_i v1 r3 hv1
                split at h
                · rename_i r4 heq4
                  simp only [Option.some.injEq, Prod.mk.injEq] at h
                  obtain ⟨hvv, hr1⟩ := h
                  subst hr1
                  -- decompose r3 before the closing brace
                  obtain ⟨w4, hw4, hws4⟩ := skipWs_decomp r3
                  rw [heq4] at hw4
                  rw [hw4] at hv1
                  -- decompose skipWs r2 consumed by the value parse
                  obtain ⟨pre2, hpre2, hne2⟩ := parseStep_suffix f .value
                    (skipWs r2) v1 (w4 ++ '\x7d' :: (r' ++ b)) hv1
                  rw [hpre2] at hv1
                  have hv1' : parseStep f .value
                      ((pre2 ++ (w4 ++ '\x7d' :: r')) ++ b)
                      = some (v1, (w4 ++ '\x7d' :: r') ++ b) := by
                    have harg : (pre2 ++ (w4 ++ '\x7d' :: r')) ++ b
                        = pre2 ++ (w4 ++ '\x7d' :: (r' ++ b)) := by simp
                    rw [harg, hv1]; simp
                  have hsvv := ih .value (pre2 ++ (w4 ++ '\x7d' :: r')) v1
                    (w4 ++ '\x7d' :: r') hv1'
                  obtain ⟨p0, ptl, hp⟩ := List.exists_cons_of_ne_nil hne2
                  have hp0 : isJsonWs p0 = false := by
                    apply skipWs_head_not r2
                    rw [hpre2, hp]; rfl
                  -- decompose r0 up to the colon
                  obtain ⟨wc, hwc, hwsc⟩ := skipWs_decomp r0
                  obtain ⟨w2, hw2, hws2⟩ := skipWs_decomp r2
                  rw [heqc] at hwc
                  rw [hpre2] at hw2
                  rw [hw2] at hwc
                  rw [hwc] at hkey
                  have hkey' : parseStr f (a' ++ b)
                      = some (k0, (wc ++ ':' :: (w2 ++ (pre2 ++ (w4 ++ '\x7d' :: r')))) ++ b) := by
                    rw [hkey]; simp
                  have hskey := parseStr_cut f a' b k0
                    (wc ++ ':' :: (w2 ++ (pre2 ++ (w4 ++ '\x7d' :: r')))) hkey'
                  have hsc : skipWs (wc ++ ':' :: (w2 ++ (pre2 ++ (w4 ++ '\x7d' :: r'))))
                      = ':' :: (w2 ++ (pre2 ++ (w4 ++ '\x7d' :: r'))) :=
                    skipWs_append_head_not wc ':' _ hwsc (by decide)
                  have hskZ : skipWs (w2 ++ (pre2 ++ (w4 ++ '\x7d' :: r')))
                      = pre2 ++ (w4 ++ '\x7d' :: r') := by
                    rw [hp]; simp only [List.cons_append]
                    exact skipWs_append_head_not w2 p0 (ptl ++ (w4 ++ '\x7d' :: r')) hws2 hp0
                  have hsvv' : parseStep f .value
                      (skipWs (w2 ++ (pre2 ++ (w4 ++ '\x7d' :: r'))))
                      = some (v1, w4 ++ '\x7d' :: r') := by
                    rw [hskZ]; exact hsvv
                  rw [parseStep_members1_close f a' k0
                    (wc ++ ':' :: (w2 ++ (pre2 ++ (w4 ++ '\x7d' :: r'))))
                    (w2 ++ (pre2 ++ (w4 ++ '\x7d' :: r'))) v1
                    (w4 ++ '\x7d' :: r') r' hskey hsc hsvv'
                    (skipWs_append_head_not w4 '\x7d' r' hws4 (by decide)), ← hvv]
                · rename_i r4 heq4
                  split at h
                  · rename_i ms r5 hrec
                    simp only [Option.some.injEq, Prod.mk.injEq] at h
                    obtain ⟨hvv, hr1⟩ := h
                    subst hr1
                    -- decompose the tail consumed by the recursive member parse
                    obtain ⟨pre5, hpre5, hne5⟩ := parseStep_suffix f .members1
                      (skipWs r4) (.obj ms) (r' ++ b) hrec
                    rw [hpre5] at hrec
                    have hsmall5 := ih .members1 (pre5 ++ r') (Json.obj ms) r'
                      (by simpa using hrec)
                    obtain ⟨q0, qtl, hq⟩ := List.exists_cons_of_ne_nil hne5
                    have hq0 : isJsonWs q0 = false := by
                      apply skipWs_head_not r4
                      rw [hpre5, hq]; rfl
                    -- decompose r3 up to the comma
                    obtain ⟨w4, hw4, hws4⟩ := skipWs_decomp r3
                    obtain ⟨w5, hw5, hws5⟩ := skipWs_decomp r4
                    rw [heq4] at hw4
                    rw [hpre5] at hw5
                    rw [hw5] at hw4
                    rw [hw4] at hv1
                    -- decompose skipWs r2 consumed by the value parse
                    obtain ⟨pre2, hpre2, hne2⟩ := parseStep_suffix f .value
                      (skipWs r2) v1
                      (w4 ++ ',' :: (w5 ++ (pre5 ++ (r' ++ b)))) hv1
                    rw [hpre2] at hv1
                    have hv1' : parseStep f .value
                        ((pre2 ++ (w4 ++ ',' :: (w5 ++ (pre5 ++ r')))) ++ b)
                        = some (v1, (w4 ++ ',' :: (w5 ++ (pre5 ++ r'))) ++ b) := by
                      have harg : (pre2 ++ (w4 ++ ',' :: (w5 ++ (pre5 ++ r')))) ++ b
                          = pre2 ++ (w4 ++ ',' :: (w5 ++ (pre5 ++ (r' ++ b)))) := by simp
                      rw [harg, hv1]; simp
                    have hsvv := ih .value
                      (pre2 ++ (w4 ++ ',' :: (w5 ++ (pre5 ++ r')))) v1
                      (w4 ++ ',' :: (w5 ++ (pre5 ++ r'))) hv1'
                    obtain ⟨p0, ptl, hp⟩ := List.exists_cons_of_ne_nil hne2
                    have hp0 : isJsonWs p0 = false := by
                      apply skipWs_head_not r2
                      rw [hpre2, hp]; rfl
                    -- decompose r0 up to the colon
                    obtain ⟨wc, hwc, hwsc⟩ := skipWs_decomp r0
                    obtain ⟨w2, hw2, hws2⟩ := skipWs_decomp r2
                    rw [heqc] at hwc
                    rw [hpre2] at hw2
                    rw [hw2] at hwc
                    rw [hwc] at hkey
                    have hkey' : parseStr f (a' ++ b)
                        = some (k0, (wc ++ ':' :: (w2 ++ (pre2 ++ (w4 ++ ',' :: (w5 ++ (pre5 ++ r')))))) ++ b) := by
                      rw [hkey]; simp
                    have hskey := parseStr_cut f a' b k0
                      (wc ++ ':' :: (w2 ++ (pre2 ++ (w4 ++ ',' :: (w5 ++ (pre5 ++ r')))))) hkey'
                    have hsc : skipWs (wc ++ ':' :: (w2 ++ (pre2 ++ (w4 ++ ',' :: (w5 ++ (pre5 ++ r'))))))
                        = ':' :: (w2 ++ (pre2 ++ (w4 ++ ',' :: (w5 ++ (pre5 ++ r'))))) :=
                      skipWs_append_head_not wc ':' _ hwsc (by decide)
                    have hskZ : skipWs (w2 ++ (pre2 ++ (w4 ++ ',' :: (w5 ++ (pre5 ++ r')))))
                        = pre2 ++ (w4 ++ ',' :: (w5 ++ (pre5 ++ r'))) := by
                      rw [hp]; simp only [List.cons_append]
                      exact skipWs_append_head_not w2 p0
                        (ptl ++ (w4 ++ ',' :: (w5 ++ (pre5 ++ r')))) hws2 hp0
                    have hsvv' : parseStep f .value
                        (skipWs (w2 ++ (pre2 ++ (w4 ++ ',' :: (w5 ++ (pre5 ++ r'))))))
                        = some (v1, w4 ++ ',' :: (w5 ++ (pre5 ++ r'))) := by
                      rw [hskZ]; exact hsvv
                    have hskW : skipWs (w5 ++ (pre5 ++ r')) = pre5 ++ r' := by
                      rw [hq]; simp only [List.cons_append]
                      exact skipWs_append_head_not w5 q0 (qtl ++ r') hws5 hq0
                    rw [parseStep_members1_comma f a' k0
                      (wc ++ ':' :: (w2 ++ (pre2 ++ (w4 ++ ',' :: (w5 ++ (pre5 ++ r'))))))
                      (w2 ++ (pre2 ++ (w4 ++ ',' :: (w5 ++ (pre5 ++ r'))))) v1
                      (w4 ++ ',' :: (w5 ++ (pre5 ++ r')))
                      (w5 ++ (pre5 ++ r')) hskey hsc hsvv'
                      (skipWs_append_head_not w4 ',' _ hws4 (by decide))]
                    rw [hskW, hsmall5, ← hvv]
                  · exact absurd h (by simp)
                · exact absurd h (by simp)
            · exact absurd h (by simp)
        · exact absurd h (by simp)

/-- String-body parsing is monotone in the fuel. -/
lemma parseStr_mono (f g : Nat) (l : List Char) (s r : List Char)
    (hfg : f ≤ g) (h : parseStr f l = some (s, r)) : parseStr g l = some (s, r) := by
  induction f generalizing g l s r with
  | zero => simp [parseStr] at h
  | succ f ih =>
    cases g with
    | zero => exact absurd hfg (by omega)
    | succ g' =>
      have hfg' : f ≤ g' := by omega
      cases l with
      | nil => simp [parseStr] at h
      | cons c tl =>
        simp only [parseStr] at h ⊢
        by_cases h1 : c = '"'
        · rw [if_pos h1] at h ⊢
          exact h
        · rw [if_neg h1] at h ⊢
          by_cases h2 : c = '\\'
          · rw [if_pos h2] at h ⊢
            cases tl with
            | nil => simp at h
            | cons e tl2 =>
              simp only [] at h ⊢
              by_cases h3 : e = '"' ∨ e = '\\' ∨ e = '/' ∨ e = 'b' ∨ e = 'f'
                  ∨ e = 'n' ∨ e = 'r' ∨ e = 't'
              · rw [if_pos h3] at h ⊢
                split at h
                · rename_i s0 r0 hrec
                  rw [ih g' tl2 s0 r0 hfg' hrec]
                  exact h
                · exact absurd h (by simp)
              · rw [if_neg h3] at h ⊢
                by_cases h4 : e = 'u'
                · rw [if_pos h4] at h ⊢
                  match tl2 with
                  | [] => exact absurd h (by simp)
                  | [h1'] => exact absurd h (by simp)
                  | [h1', h2'] => exact absurd h (by simp)
                  | [h1', h2', h3'] => exact absurd h (by simp)
                  | h1' :: h2' :: h3' :: h4' :: tl3 =>
                    simp only [] at h ⊢
                    split at h
                    · rename_i hhex
                      rw [if_pos hhex]
                      split at h
                      · rename_i s0 r0 hrec
                        rw [ih g' tl3 s0 r0 hfg' hrec]
                        exact h
                      · exact absurd h (by simp)
                    · exact absurd h (by simp)
                · rw [if_neg h4] at h ⊢
                  exact h
          · rw [if_neg h2] at h ⊢
            by_cases h3 : c.toNat < 32
            · rw [if_pos h3] at h
              exact absurd h (by simp)
            · rw [if_neg h3] at h ⊢
              split at h
              · rename_i s0 r0 hrec
                rw [ih g' tl s0 r0 hfg' hrec]
                exact h
              · exact absurd h (by simp)

/-- The parser is monotone in the fuel: success at fuel `f` is success with
the same result at any larger fuel. -/
lemma parseStep_mono (f g : Nat) (m : PMode) (l : List Char) (v : Json)
    (r : List Char) (hfg : f ≤ g) (h : parseStep f m l = some (v, r)) :
    parseStep g m l = some (v, r) := by
  induction f generalizing g m l v r with
  | zero => simp [parseStep] at h
  | succ f ih =>
    cases g with
    | zero => exact absurd hfg (by omega)
    | succ g' =>
      have hfg' : f ≤ g' := by omega
      cases m with
      | value =>
        cases l with
        | nil => simp [parseStep] at h
        | cons c tl =>
          simp only [parseStep] at h ⊢
          by_cases h1 : c = '"'
          · rw [if_pos h1] at h ⊢
            split at h
            · rename_i s0 r0 hstr
              rw [parseStr_mono f g' tl s0 r0 hfg' hstr]
              exact h
            · exact absurd h (by simp)
          · rw [if_neg h1] at h ⊢
            by_cases h2 : c = '['
            · rw [if_pos h2] at h ⊢
              exact ih g' .elems0 tl v r hfg' h
            · rw [if_neg h2] at h ⊢
              by_cases h3 : c = '\x7b'
              · rw [if_pos h3] at h ⊢
                split at h
                · rename_i ms r0 hm
                  rw [ih g' .members0 tl (.obj ms) r0 hfg' hm]
                  exact h
                · exact absurd h (by simp)
              · rw [if_neg h3] at h ⊢
                exact h
      | elems0 =>
        simp only [parseStep] at h
        split at h
        · rename_i r2 heq
          rw [parseStep_elems0_close g' l r2 heq]
          exact h
        · cases hsk : skipWs l with
          | nil =>
            rw [hsk] at h
            obtain ⟨pre, hpre, hne⟩ :=
              parseStep_suffix f .elems1 [] v r h
            exact absurd (List.append_eq_nil.mp hpre.symm).1 hne
          | cons c rest =>
            rename_i hns
            have hc : c ≠ ']' := by
              intro hc
              subst hc
              exact hns rest hsk
            rw [parseStep_elems0_go g' l c rest hsk hc]
            rw [hsk] at h
            exact ih g' .elems1 (c :: rest) v r hfg' h
      | members0 =>
        simp only [parseStep] at h
        split at h
        · rename_i r2 heq
          rw [parseStep_members0_close g' l r2 heq]
          exact h
        · cases hsk : skipWs l with
          | nil =>
            rw [hsk] at h
            obtain ⟨pre, hpre, hne⟩ :=
              parseStep_suffix f .members1 [] v r h
            exact absurd (List.append_eq_nil.mp hpre.symm).1 hne
          | cons c rest =>
            rename_i hns
            have hc : c ≠ '\x7d' := by
              intro hc
              subst hc
              exact hns rest hsk
            rw [parseStep_members0_go g' l c rest hsk hc]
            rw [hsk] at h
            exact ih g' .members1 (c :: rest) v r hfg' h
      | elems1 =>
        simp only [parseStep] at h
        split at h
        · exact absurd h (by simp)
        · rename_i v0 r0 hval
          split at h
          · rename_i r2 heq2
            rw [parseStep_elems1_close g' l v0 r0 r2
              (ih g' .value l v0 r0 hfg' hval) heq2]
            exact h
          · rename_i r2 heq2
            split at h
            · rename_i vs r3 hrec
              rw [parseStep_elems1_comma g' l v0 r0 r2
                (ih g' .value l v0 r0 hfg' hval) heq2]
              rw [ih g' .elems1 (skipWs r2) (.arr vs) r3 hfg' hrec]
              exact h
            · exact absurd h (by simp)
          · exact absurd h (by simp)
      | members1 =>
        simp only [parseStep] at h
        split at h
        · rename_i tl0
          split at h
          · exact absurd h (by simp)
          · rename_i k0 r0 hkey
            split at h
            · rename_i r2 heqc
              split at h
              · exact absurd h (by simp)
              · rename_i v1 r3 hv1
                split at h
                · rename_i r4 heq4
                  rw [parseStep_members1_close g' tl0 k0 r0 r2 v1 r3 r4
                    (parseStr_mono f g' tl0 k0 r0 hfg' hkey) heqc
                    (ih g' .value (skipWs r2) v1 r3 hfg' hv1) heq4]
                  exact h
                · rename_i r4 heq4
                  split at h
                  · rename_i ms r5 hrec
                    rw [parseStep_members1_comma g' tl0 k0 r0 r2 v1 r3 r4
                      (parseStr_mono f g' tl0 k0 r0 hfg' hkey) heqc
                      (ih g' .value (skipWs r2) v1 r3 hfg' hv1) heq4]
                    rw [ih g' .members1 (skipWs r4) (.obj ms) r5 hfg' hrec]
                    exact h
                  · exact absurd h (by simp)
                · exact absurd h (by simp)
            · exact absurd h (by simp)
        · exact absurd h (by simp)

/-- Document-level parsing is monotone in the fuel. -/
lemma parseDoc_mono (f g : Nat) (s : String) (v : Json) (hfg : f ≤ g)
    (h : parseDoc f s = some v) : parseDoc g s = some v := by
  unfold parseDoc at h ⊢
  split at h
  · rename_i v0 r0 hstep
    rw [parseStep_mono f g .value (skipWs s.toList) v0 r0 hfg hstep]
    exact h
  · exact absurd h (by simp)

/-- `findSplit` at an occurrence sitting at the very start of the list. -/
lemma findSplit_prefix (sep rest : List Char) (hsep : sep ≠ []) :
    findSplit sep (sep ++ rest) = some ([], rest) := by
  obtain ⟨s0, stl, hs⟩ := List.exists_cons_of_ne_nil hsep
  subst hs
  simp only [List.cons_append, findSplit]
  rw [if_pos]
  · simp only [List.append_eq]
    have hx : (s0 :: (stl ++ rest)) = (s0 :: stl) ++ rest := by simp
    rw [hx, List.drop_left]
  · exact List.isPrefixOf_iff_prefix.mpr ⟨rest, by simp⟩

/-- A successful `findSplit` decomposes the list around the separator. -/
lemma findSplit_some_decomp (sep l p q : List Char)
    (h : findSplit sep l = some (p, q)) : l = p ++ (sep ++ q) := by
  induction l generalizing p q with
  | nil =>
    simp only [findSplit] at h
    split at h
    · rename_i hsep
      simp only [Option.some.injEq, Prod.mk.injEq] at h
      obtain ⟨h1, h2⟩ := h
      subst h1
      subst h2
      simp [(isEmpty_true_iff sep).mp hsep]
    · exact absurd h (by simp)
  | cons c tl ih =>
    simp only [findSplit] at h
    split at h
    · rename_i hpre
      simp only [Option.some.injEq, Prod.mk.injEq] at h
      obtain ⟨h1, h2⟩ := h
      subst h1
      obtain ⟨w, hw⟩ := List.isPrefixOf_iff_prefix.mp hpre
      have hq : q = w := by
        rw [← h2, ← hw, List.drop_left]
      rw [List.nil_append, hq, hw]
    · split at h
      · rename_i p' q' hrec
        simp only [Option.some.injEq, Prod.mk.injEq] at h
        obtain ⟨h1, h2⟩ := h
        subst h1
        subst h2
        rw [List.cons_append, ← ih p' q' hrec]
      · exact absurd h (by simp)

/-- The head part returned by a fueled split is the text before the first
separator occurrence (the whole list when there is none). -/
lemma splitSepList_head (sep : List Char) (f : Nat) (x : List Char) :
    (splitSepList sep (f+1) x).getD 0 [] =
      (match findSplit sep x with
       | none => x
       | some (p, _) => p) := by
  simp only [splitSepList]
  cases hfs : findSplit sep x with
  | none => simp
  | some pq =>
    obtain ⟨p, q⟩ := pq
    simp

/-- `findSplit` finds exactly the leftmost occurrence of the separator. -/
lemma findSplit_eq_some_of (sep l p q : List Char) (hsep : sep ≠ [])
    (hl : l = p ++ (sep ++ q))
    (hmin : ∀ p' q', l = p' ++ (sep ++ q') → p.length ≤ p'.length) :
    findSplit sep l = some (p, q) := by
  induction p generalizing l with
  | nil =>
    subst hl
    simp only [List.nil_append]
    exact findSplit_prefix sep q hsep
  | cons c p' ih =>
    subst hl
    simp only [List.cons_append, findSplit, List.append_eq]
    rw [if_neg]
    · have hmin' : ∀ p'' q'', p' ++ (sep ++ q) = p'' ++ (sep ++ q'') →
          p'.length ≤ p''.length := by
        intro p'' q'' hpq
        have := hmin (c :: p'') q'' (by simp [hpq])
        simpa using this
      rw [ih (p' ++ (sep ++ q)) rfl hmin']
    · intro hpre
      obtain ⟨w, hw⟩ := List.isPrefixOf_iff_prefix.mp hpre
      have := hmin [] w (by simp [hw])
      simp at this

/-- A value parse that returns an array must have started at `[`. -/
lemma parseStep_value_arr_head (f : Nat) (l : List Char) (xs : List Json)
    (r : List Char) (h : parseStep f .value l = some (.arr xs, r)) :
    ∃ tl, l = '[' :: tl := by
  cases f with
  | zero => simp [parseStep] at h
  | succ f =>
    cases l with
    | nil => simp [parseStep] at h
    | cons c tl =>
      simp only [parseStep] at h
      split at h
      · split at h
        · simp at h
        · simp at h
      · split at h
        · rename_i hc
          exact ⟨tl, by rw [hc]⟩
        · split at h
          · split at h
            · simp at h
            · simp at h
          · split at h
            · obtain ⟨hd, hv⟩ := matchLit_decomp _ _ _ (c :: tl) r h
              simp at hv
            · split at h
              · obtain ⟨hd, hv⟩ := matchLit_decomp _ _ _ (c :: tl) r h
                simp at hv
              · split at h
                · obtain ⟨hd, hv⟩ := matchLit_decomp _ _ _ (c :: tl) r h
                  simp at hv
                · split at h
                  · obtain ⟨hd, hv⟩ := matchLit_decomp _ _ _ (c :: tl) r h
                    simp at hv
                  · split at h
                    · obtain ⟨hd, hv⟩ := matchLit_decomp _ _ _ (c :: tl) r h
                      simp at hv
                    · split at h
                      · obtain ⟨hd, hv⟩ := matchLit_decomp _ _ _ (c :: tl) r h
                        simp at hv
                      · split at h
                        · simp at h
                        · simp at h

/-- A parse in a list mode that returns an array consumed text ending with
the closing bracket. -/
lemma parseStep_arr_close (f : Nat) (m : PMode) (l : List Char) (xs : List Json)
    (r : List Char) (hm : m = PMode.value ∨ m = PMode.elems0 ∨ m = PMode.elems1)
    (h : parseStep f m l = some (.arr xs, r)) :
    ∃ pre, l = pre ++ (']' :: r) := by
  induction f generalizing m l xs r with
  | zero => simp [parseStep] at h
  | succ f ih =>
    rcases hm with hm | hm | hm
    all_goals subst hm
    · cases l with
      | nil => simp [parseStep] at h
      | cons c tl =>
        simp only [parseStep] at h
        split at h
        · split at h
          · simp at h
          · simp at h
        · split at h
          · obtain ⟨pre, hpre⟩ := ih .elems0 tl xs r (by simp) h
            exact ⟨c :: pre, by simp [hpre]⟩
          · split at h
            · split at h
              · simp at h
              · simp at h
            · split at h
              · obtain ⟨hd, hv⟩ := matchLit_decomp _ _ _ (c :: tl) r h
                simp at hv
              · split at h
                · obtain ⟨hd, hv⟩ := matchLit_decomp _ _ _ (c :: tl) r h
                  simp at hv
                · split at h
                  · obtain ⟨hd, hv⟩ := matchLit_decomp _ _ _ (c :: tl) r h
                    simp at hv
                  · split at h
                    · obtain ⟨hd, hv⟩ := matchLit_decomp _ _ _ (c :: tl) r h
                      simp at hv
                    · split at h
                      · obtain ⟨hd, hv⟩ := matchLit_decomp _ _ _ (c :: tl) r h
                        simp at hv
                      · split at h
                        · obtain ⟨hd, hv⟩ := matchLit_decomp _ _ _ (c :: tl) r h
                          simp at hv
                        · split at h
                          · simp at h
                          · simp at h
    · simp only [parseStep] at h
      split at h
      · rename_i r2 heq
        simp only [Option.some.injEq, Prod.mk.injEq] at h
        obtain ⟨hv1, hr1⟩ := h
        subst hr1
        obtain ⟨w, hw, hws⟩ := skipWs_decomp l
        rw [heq] at hw
        exact ⟨w, hw⟩
      · obtain ⟨pre, hpre⟩ := ih .elems1 (skipWs l) xs r (by simp) h
        obtain ⟨w, hw, hws⟩ := skipWs_decomp l
        rw [hpre] at hw
        exact ⟨w ++ pre, by simp [hw]⟩
    · simp only [parseStep] at h
      split at h
      · simp at h
      · rename_i v0 r0 hval
        split at h
        · rename_i r2 heq2
          simp only [Option.some.injEq, Prod.mk.injEq] at h
          obtain ⟨hv1, hr1⟩ := h
          rw [hr1] at heq2
          obtain ⟨pre0, hpre0, hne0⟩ := parseStep_suffix f .value l v0 r0 hval
          obtain ⟨w, hw, hws⟩ := skipWs_decomp r0
          rw [heq2] at hw
          rw [hw] at hpre0
          exact ⟨pre0 ++ w, by simp [hpre0]⟩
        · rename_i r2 heq2
          split at h
          · rename_i vs r3 hrec
            simp only [Option.some.injEq, Prod.mk.injEq] at h
            obtain ⟨hv1, hr1⟩ := h
            rw [hr1] at hrec
            obtain ⟨pre2, hpre2⟩ := ih .elems1 (skipWs r2) vs r (by simp) hrec
            obtain ⟨pre0, hpre0, hne0⟩ := parseStep_suffix f .value l v0 r0 hval
            obtain ⟨w0, hw0, hws0⟩ := skipWs_decomp r0
            obtain ⟨w2, hw2, hws2⟩ := skipWs_decomp r2
            rw [heq2] at hw0
            rw [hpre2] at hw2
            rw [hw2] at hw0
            rw [hw0] at hpre0
            exact ⟨pre0 ++ (w0 ++ ',' :: (w2 ++ pre2)), by simp [hpre0]⟩
          · simp at h
        · simp at h

/-- `dropWhile` drops a satisfying prefix and stops at a failing head. -/
lemma dropWhile_append_head_not (p : Char → Bool) (w : List Char) (c : Char)
    (r : List Char) (hw : ∀ x ∈ w, p x = true) (hc : p c = false) :
    (w ++ c :: r).dropWhile p = c :: r := by
  rw [List.dropWhile_append]
  have hnil : w.dropWhile p = [] := List.dropWhile_eq_nil_iff.mpr hw
  rw [hnil]
  simp [List.dropWhile_cons, hc]

/-- JSON whitespace is also Python `str.strip` whitespace. -/
lemma jsonWs_pySpace (c : Char) (h : isJsonWs c = true) : isPySpace c = true := by
  simp [isJsonWs] at h
  rcases h with ((h | h) | h) | h
  all_goals subst h
  all_goals decide

/-- JSON whitespace is never a backtick. -/
lemma jsonWs_ne_backtick (c : Char) (h : isJsonWs c = true) : c ≠ '`' := by
  intro hc
  subst hc
  exact absurd h (by decide)

/-- If the fence marker occurs with its start inside `t`, then `t` contains
the fence marker. -/
lemma fence_not_in (t p w : List Char)
    (hfence : (findSplit ("```".toList) t).isSome = false)
    (hw : (p ++ "```".toList) ++ w = t) : False := by
  have h2 := findSplit_isSome "```".toList t p w (by rw [← hw]; simp)
  rw [hfence] at h2
  exact absurd h2 (by simp)

/-- Python `strip` of a text sandwiched between JSON whitespace runs, whose
first and last characters are not strippable, removes exactly the runs. -/
lemma pyStripList_sandwich (ws1 : List Char) (c : Char) (mid : List Char)
    (d : Char) (rr : List Char)
    (hws1 : ∀ x ∈ ws1, isJsonWs x = true) (hrr : ∀ x ∈ rr, isJsonWs x = true)
    (hc : isPySpace c = false) (hd : isPySpace d = false) :
    pyStripList (ws1 ++ ((c :: (mid ++ [d])) ++ rr)) = c :: (mid ++ [d]) := by
  have hws1' : ∀ x ∈ ws1, isPySpace x = true :=
    fun x hx => jsonWs_pySpace x (hws1 x hx)
  have hrr' : ∀ x ∈ rr, isPySpace x = true :=
    fun x hx => jsonWs_pySpace x (hrr x hx)
  unfold pyStripList
  have h1 : (ws1 ++ ((c :: (mid ++ [d])) ++ rr)).dropWhile isPySpace
      = c :: ((mid ++ [d]) ++ rr) := by
    have hsh : (ws1 ++ ((c :: (mid ++ [d])) ++ rr))
        = ws1 ++ (c :: ((mid ++ [d]) ++ rr)) := by simp
    rw [hsh]
    exact dropWhile_append_head_not isPySpace ws1 c _ hws1' hc
  rw [h1]
  have h2 : (c :: ((mid ++ [d]) ++ rr)).reverse
      = rr.reverse ++ (d :: (mid.reverse ++ [c])) := by
    simp
  rw [h2]
  have h3 : (rr.reverse ++ (d :: (mid.reverse ++ [c]))).dropWhile isPySpace
      = d :: (mid.reverse ++ [c]) :=
    dropWhile_append_head_not isPySpace rr.reverse d _
      (fun x hx => hrr' x (List.mem_reverse.mp hx)) hd
  rw [h3]
  simp

/-- One unfolding step of the fueled split. -/
lemma splitSepList_succ (sep : List Char) (f : Nat) (l : List Char) :
    splitSepList sep (f+1) l =
      match findSplit sep l with
      | none => [l]
      | some (p, q) => p :: splitSepList sep f q := rfl

/-- Fence stripping on a response wrapped in a tagged fence around a text
containing no fence marker and not ending in a backtick: the wrapper is
removed and the inner text stripped. -/
lemma stripFences_fenced (t : String) (hfence : pyContains "```" t = false)
    (hlast : ∀ body lc, t.data = body ++ [lc] → lc ≠ '`') :
    stripFences ("```json" ++ t ++ "```") = String.mk (pyStripList t.data) := by
  have hfence' : (findSplit "```".toList t.data).isSome = false := hfence
  have hfjlen : (("```json".toList : List Char)).length = 7 := rfl
  have hf3len : (("```".toList : List Char)).length = 3 := rfl
  have hfj3 : ("```json".toList : List Char) = "```".toList ++ "json".toList := rfl
  have hl : ("```json" ++ t ++ "```").toList
      = "```json".toList ++ (t.data ++ "```".toList) := by
    simp [string_toList_eq, String.data_append]
  have hsplit1 : findSplit "```json".toList (("```json" ++ t ++ "```").toList)
      = some ([], t.data ++ "```".toList) := by
    rw [hl]
    exact findSplit_prefix _ _ (by decide)
  have hnofj : findSplit "```json".toList (t.data ++ "```".toList) = none := by
    cases hfs : findSplit "```json".toList (t.data ++ "```".toList) with
    | none => rfl
    | some pq =>
      exfalso
      obtain ⟨p, q⟩ := pq
      have hdec := findSplit_some_decomp _ _ p q hfs
      have hlen := congrArg List.length hdec
      simp only [List.length_append, hfjlen, hf3len] at hlen
      have hpre1 : (p ++ "```".toList) <+: (t.data ++ "```".toList) := by
        refine ⟨"json".toList ++ q, ?_⟩
        rw [hdec, hfj3]
        simp
      have hle : (p ++ "```".toList).length ≤ t.data.length := by
        simp only [List.length_append, hf3len]
        omega
      obtain ⟨w, hw⟩ :=
        List.prefix_of_prefix_length_le hpre1 (List.prefix_append _ _) hle
      exact fence_not_in t.data p w hfence' hw
  have hsplit3 : findSplit "```".toList (t.data ++ "```".toList)
      = some (t.data, []) := by
    apply findSplit_eq_some_of _ _ _ _ (by decide) (by simp)
    intro p' q' hpq
    by_contra hlt
    push_neg at hlt
    by_cases hAB : p'.length + 3 ≤ t.data.length
    · have hpre1 : (p' ++ "```".toList) <+: (t.data ++ "```".toList) := by
        refine ⟨q', ?_⟩
        rw [hpq]
        simp
      have hle : (p' ++ "```".toList).length ≤ t.data.length := by
        simp only [List.length_append, hf3len]
        omega
      obtain ⟨w, hw⟩ :=
        List.prefix_of_prefix_length_le hpre1 (List.prefix_append _ _) hle
      exact fence_not_in t.data p' w hfence' hw
    · push_neg at hAB
      have hpre1 : (p' ++ ['`']) <+: (t.data ++ "```".toList) := by
        refine ⟨['`', '`'] ++ q', ?_⟩
        rw [hpq]
        have hf3 : ("```".toList : List Char) = ['`', '`', '`'] := rfl
        rw [hf3]
        simp
      have hle : (p' ++ ['`']).length ≤ t.data.length := by
        simp only [List.length_append, List.length_cons, List.length_nil]
        omega
      obtain ⟨w', hw'⟩ :=
        List.prefix_of_prefix_length_le hpre1 (List.prefix_append _ _) hle
      have hwlen : w'.length ≤ 1 := by
        have hlw := congrArg List.length hw'
        simp only [List.length_append, List.length_cons, List.length_nil] at hlw
        omega
      cases w' with
      | nil =>
        exact hlast p' '`' (by rw [← hw']; simp) rfl
      | cons x w'' =>
        have hw''nil : w'' = [] := by
          simp only [List.length_cons] at hwlen
          exact List.length_eq_zero.mp (by omega)
        subst hw''nil
        have hEq : ((p' ++ ['`']) ++ [x]) ++ "```".toList
            = p' ++ ("```".toList ++ q') := by
          rw [hw', hpq]
        have hEq2 : ('`' :: x :: "```".toList : List Char)
            = "```".toList ++ q' := by
          have hEq' := hEq
          simp only [List.append_assoc, List.cons_append, List.nil_append] at hEq'
          exact List.append_cancel_left hEq'
        have hf3 : ("```".toList : List Char) = ['`', '`', '`'] := rfl
        rw [hf3] at hEq2
        simp only [List.cons_append, List.nil_append, List.cons.injEq] at hEq2
        have hx : x = '`' := hEq2.2.1
        exact hlast (p' ++ ['`']) x hw'.symm (hx ▸ rfl)
  have hcont : containsSeq "```json".toList (("```json" ++ t ++ "```").toList)
      = true := by
    unfold containsSeq
    rw [hsplit1]
    rfl
  have hLlen : (("```json" ++ t ++ "```").toList).length
      = (t.data.length + 9) + 1 := by
    rw [hl]
    simp only [List.length_append, hfjlen, hf3len]
    omega
  have hpart1 : partAt (splitSepList "```json".toList
      ((("```json" ++ t ++ "```").toList).length + 1)
      (("```json" ++ t ++ "```").toList)) 1 = t.data ++ "```".toList := by
    simp only [partAt]
    rw [hLlen, splitSepList_succ, hsplit1, List.getD_cons_succ]
    rw [splitSepList_head, hnofj]
  have hpart0 : partAt (splitSepList "```".toList
      ((t.data ++ "```".toList).length + 1) (t.data ++ "```".toList)) 0
      = t.data := by
    simp only [partAt]
    rw [splitSepList_head, hsplit3]
  simp only [stripFences]
  rw [if_pos hcont, hpart1, hpart0]

/-- Claim C5: when the model wraps a fence-free JSON-array text `t` in a
```json fence, the handler's fence stripping followed by `json.loads`
accepts exactly the array that parsing `t` directly yields: the stripping
is a no-op on the parsed result. -/
theorem c5_fence_strip_roundtrip (t : String) (xs : List Json)
    (hfence : pyContains "```" t = false)
    (hparse : parseJson t = some (Json.arr xs)) :
    Parses (stripFences ("```json" ++ t ++ "```")) (Json.arr xs)
    ∧ ∀ v, Parses (stripFences ("```json" ++ t ++ "```")) v → v = Json.arr xs := by
  unfold parseJson parseDoc at hparse
  split at hparse
  · rename_i v1 r1 hstep
    split at hparse
    · rename_i hE
      simp only [Option.some.injEq] at hparse
      subst hparse
      rw [string_toList_eq] at hstep
      generalize hFg : 2 * t.length + 2 = F at hstep
      have hr1nil : skipWs r1 = [] := by
        simp only [skipWs]
        exact (isEmpty_true_iff _).mp hE
      have hrrws : ∀ c ∈ r1, isJsonWs c = true := by
        have := hr1nil
        simp only [skipWs] at this
        exact List.dropWhile_eq_nil_iff.mp this
      obtain ⟨tl1, hhead⟩ := parseStep_value_arr_head F (skipWs t.data) xs r1 hstep
      obtain ⟨pre, hclose⟩ :=
        parseStep_arr_close F .value (skipWs t.data) xs r1 (by simp) hstep
      obtain ⟨ws1, hws1eq, hws1⟩ := skipWs_decomp t.data
      have hlast : ∀ body lc, t.data = body ++ [lc] → lc ≠ '`' := by
        intro body lc hb hlc
        rcases List.eq_nil_or_concat r1 with hr1e | ⟨rin, rl, hr1e⟩
        · have hfull : t.data = (ws1 ++ pre) ++ [']'] := by
            rw [hws1eq, hclose, hr1e]
            simp
          have hcomb : body ++ [lc] = (ws1 ++ pre) ++ [']'] := by
            rw [← hb, hfull]
          have hl2 := (List.append_inj' hcomb (by simp)).2
          simp only [List.cons.injEq, and_true] at hl2
          rw [hlc] at hl2
          exact absurd hl2 (by decide)
        · have hr1e' : r1 = rin ++ [rl] := by simpa using hr1e
          have hfull : t.data = (ws1 ++ pre ++ (']' :: rin)) ++ [rl] := by
            rw [hws1eq, hclose, hr1e']
            simp
          have hcomb : body ++ [lc] = (ws1 ++ pre ++ (']' :: rin)) ++ [rl] := by
            rw [← hb, hfull]
          have hl2 := (List.append_inj' hcomb (by simp)).2
          simp only [List.cons.injEq, and_true] at hl2
          have hrlws : isJsonWs rl = true := hrrws rl (by rw [hr1e']; simp)
          rw [hlc] at hl2
          exact jsonWs_ne_backtick rl hrlws hl2.symm
      cases pre with
      | nil =>
        rw [hhead] at hclose
        simp at hclose
      | cons c0 pre' =>
        have hc0 : c0 = '[' := by
          rw [hhead] at hclose
          simp only [List.cons_append, List.cons.injEq] at hclose
          exact hclose.1.symm
        subst hc0
        have hstrip := stripFences_fenced t hfence hlast
        have hsand : pyStripList t.data = '[' :: (pre' ++ [']']) := by
          have hdec : t.data = ws1 ++ (('[' :: (pre' ++ [']'])) ++ r1) := by
            rw [hws1eq, hclose]
            simp
          rw [hdec]
          exact pyStripList_sandwich ws1 '[' pre' ']' r1 hws1 hrrws
            (by decide) (by decide)
        have hcorestep : parseStep F .value ('[' :: (pre' ++ [']']))
            = some (.arr xs, []) := by
          have hsk : skipWs t.data = ('[' :: (pre' ++ [']'])) ++ r1 := by
            rw [hclose]
            simp
          rw [hsk] at hstep
          cases hr1c : r1 with
          | nil =>
            rw [hr1c] at hstep
            simpa using hstep
          | cons a as =>
            rw [hr1c] at hstep
            exact parseStep_cut F .value ('[' :: (pre' ++ [']'])) (a :: as)
              (.arr xs) [] (by simp) (by simpa using hstep)
        have hdoc : parseDoc F (String.mk (pyStripList t.data))
            = some (Json.arr xs) := by
          unfold parseDoc
          have htl : (String.mk (pyStripList t.data)).toList
              = '[' :: (pre' ++ [']']) := hsand
          rw [htl]
          have hsk2 : skipWs ('[' :: (pre' ++ [']'])) = '[' :: (pre' ++ [']']) := by
            simp [skipWs, List.dropWhile_cons, isJsonWs]
          rw [hsk2, hcorestep]
          simp [skipWs]
        constructor
        · rw [hstrip]
          exact ⟨F, hdoc⟩
        · intro v hv
          rw [hstrip] at hv
          obtain ⟨g, hg⟩ := hv
          have h1 := parseDoc_mono F (F + g) _ _ (by omega) hdoc
          have h2 := parseDoc_mono g (F + g) _ _ (by omega) hg
          rw [h1] at h2
          exact (Option.some.inj h2).symm
    · exact absurd hparse (by simp)
  · exact absurd hparse (by simp)

/-- The fence round-trip theorem applies to the concrete response
"```json[1]```". -/
theorem c5_fence_strip_roundtrip_witness :
    pyContains "```" "[1]" = false
    ∧ parseJson "[1]" = some (Json.arr [Json.num "1"])
    ∧ Parses (stripFences ("```json" ++ "[1]" ++ "```"))
        (Json.arr [Json.num "1"]) :=
  ⟨by rfl, by rfl,
    (c5_fence_strip_roundtrip "[1]" [Json.num "1"] (by rfl) (by rfl)).1⟩
